import Mathlib

/-!
Shallow embedding of the transcription orchestration layer of speech-to-phrase
(src/speech_to_phrase/): the Vietnamese number normalizer, the shared
finalization pipeline, the per-backend post-processing and short-circuit
structure, the resource cache, the greedy transducer decoder and the token
table loader, together with theorems checking the specification's claims.

External collaborators (the neural model backends, `decode_meta`, the casing
function table) are modelled as opaque injected functions, as the spec
prescribes.
-/

namespace SpeechToPhrase

/-! ## Python string primitives (str.split / str.strip / str.replace / str(int)) -/
/-- Python's `str` whitespace class (the code points `str.split` and
`str.strip` split on). -/
def isPySpace (c : Char) : Bool :=
  (9 ≤ c.toNat && c.toNat ≤ 13) || c.toNat = 32 ||
  (28 ≤ c.toNat && c.toNat ≤ 31) || c.toNat = 133 || c.toNat = 160 ||
  c.toNat = 5760 || (8192 ≤ c.toNat && c.toNat ≤ 8202) ||
  c.toNat = 8232 || c.toNat = 8233 || c.toNat = 8239 || c.toNat = 8287 ||
  c.toNat = 12288

/-- Helper for `pySplit`: accumulates the current (reversed) token. -/
def splitWsAux : List Char → List Char → List (List Char)
  | cur, [] => if cur.isEmpty then [] else [cur.reverse]
  | cur, c :: cs =>
    if isPySpace c then
      if cur.isEmpty then splitWsAux [] cs else cur.reverse :: splitWsAux [] cs
    else
      splitWsAux (c :: cur) cs

/-- Python `text.split()`: split on runs of whitespace, dropping empties. -/
def pySplit (s : String) : List String :=
  (splitWsAux [] s.data).map String.mk

/-- Python `" ".join(tokens)`. -/
def joinSpace : List String → String
  | [] => ""
  | [t] => t
  | t :: u :: ts => t ++ " " ++ joinSpace (u :: ts)

/-- Python `text.strip()` (no argument: strips whitespace on both ends;
`List.rdropWhile p l` is by definition `(l.reverse.dropWhile p).reverse`). -/
def pyStrip (s : String) : String :=
  ⟨List.rdropWhile isPySpace (s.data.dropWhile isPySpace)⟩

/-- Python `text.rstrip(".")` (strips trailing `'.'` characters). -/
def rstripDot (s : String) : String :=
  ⟨List.rdropWhile (fun c => c == '.') s.data⟩

/-- Helper for `pyReplace`: Python `str.replace` semantics (left-to-right,
non-overlapping); the `Nat` counter skips over the just-matched occurrence.
All patterns used in the source are non-empty. -/
def replAux (pat rep : List Char) : Nat → List Char → List Char
  | _, [] => []
  | Nat.succ k, _ :: cs => replAux pat rep k cs
  | 0, c :: cs =>
    if pat ≠ [] ∧ pat.isPrefixOf (c :: cs) then
      rep ++ replAux pat rep (pat.length - 1) cs
    else
      c :: replAux pat rep 0 cs

/-- Python `s.replace(pat, rep)` (and `re.sub` on the literal pattern the
source uses). -/
def pyReplace (s pat rep : String) : String :=
  ⟨replAux pat.data rep.data 0 s.data⟩

/-- The ASCII digit character for `n % 10`. -/
def digitChar10 (n : Nat) : Char :=
  if n % 10 = 0 then '0' else if n % 10 = 1 then '1' else if n % 10 = 2 then '2'
  else if n % 10 = 3 then '3' else if n % 10 = 4 then '4'
  else if n % 10 = 5 then '5' else if n % 10 = 6 then '6'
  else if n % 10 = 7 then '7' else if n % 10 = 8 then '8' else '9'

/-- Fuel-driven decimal digits of `n` (most significant first). -/
def natReprAux : Nat → Nat → List Char
  | 0, _ => []
  | Nat.succ fuel, n =>
    if n < 10 then [digitChar10 n] else natReprAux fuel (n / 10) ++ [digitChar10 (n % 10)]

/-- Python `str(n)` for a natural number (the only integers the normalizer
prints are non-negative). -/
def natRepr (n : Nat) : String := ⟨natReprAux (n + 1) n⟩

/-! ## vi_normalize.py -/
/-- `_NUMBER_UNITS` lookup. -/
def number_unit (w : String) : Option Nat :=
  if w = "không" then some 0
  else if w = "một" then some 1
  else if w = "mốt" then some 1
  else if w = "hai" then some 2
  else if w = "ba" then some 3
  else if w = "bốn" then some 4
  else if w = "tư" then some 4
  else if w = "năm" then some 5
  else if w = "lăm" then some 5
  else if w = "sáu" then some 6
  else if w = "bảy" then some 7
  else if w = "tám" then some 8
  else if w = "chín" then some 9
  else none

/-- `_NUMBER_TOKENS = set(_NUMBER_UNITS) | {"mười", "mươi", "linh", "lẻ", "trăm"}`. -/
def number_tokens : List String :=
  ["không", "một", "mốt", "hai", "ba", "bốn", "tư", "năm", "lăm", "sáu",
   "bảy", "tám", "chín", "mười", "mươi", "linh", "lẻ", "trăm"]

/-- Membership in `_NUMBER_TOKENS`. -/
def isNumberToken (w : String) : Bool := decide (w ∈ number_tokens)

/-- `_NUMBER_FOLLOWERS`. -/
def number_followers : List String :=
  ["giờ", "phút", "giây", "ngày", "tháng", "năm", "độ", "phần", "rưỡi"]

/-- The loop body state of `_words_to_number`: `(total, value_set)`; `none`
signals the early `return None` on an unrecognized word. -/
def wordsToNumberAux : Nat → Bool → List String → Option (Nat × Bool)
  | total, valueSet, [] => some (total, valueSet)
  | total, _, "mười" :: ws =>
    wordsToNumberAux (if total = 0 then 10 else total + 10) true ws
  | total, _, "mươi" :: ws =>
    wordsToNumberAux ((if total = 0 then 1 else total) * 10) true ws
  | total, _, "linh" :: ws => wordsToNumberAux total true ws
  | total, _, "lẻ" :: ws => wordsToNumberAux total true ws
  | total, _, "trăm" :: ws =>
    wordsToNumberAux ((if total = 0 then 1 else total) * 100) true ws
  | total, valueSet, w :: ws =>
    match number_unit w with
    | none => none
    | some u =>
      wordsToNumberAux (if 10 ≤ total ∨ valueSet = true then total + u else u) true ws

/-- `_words_to_number(words)`. -/
def words_to_number (ws : List String) : Option Nat :=
  if ws.isEmpty then none
  else
    match wordsToNumberAux 0 false ws with
    | none => none
    | some (total, valueSet) => if valueSet then some total else none

/-- The `should_convert` computation of `normalize_vietnamese_numbers`,
given the run's value and the tokens after the run. -/
def shouldConvert (v : Option Nat) (rest : List String) : Bool :=
  let next := rest.headD ""
  if next ∈ number_followers then true
  else if next = "phần" ∧ rest.get? 1 = some "trăm" then true
  else if next = "rưỡi" then true
  else if rest.isEmpty then
    match v with
    | some n => ¬n = 0 ∧ 10 ≤ n
    | none => false
  else false

/-- The full conversion decision for a run: `some n` when the run is replaced
by the digit string of `n`, `none` when the leading token passes through. -/
def runConvert (prev : String) (run rest : List String) : Option Nat :=
  match words_to_number run with
  | none => none
  | some n =>
    if shouldConvert (some n) rest ∧ ¬(n = 0 ∧ run = ["không"]) ∧
        ¬(run = ["trăm"] ∧ prev = "phần") then
      some n
    else none

/-- The scanning loop of `normalize_vietnamese_numbers` over the token list.
The first argument counts tokens still to be skipped after a converted run
(the Python `i = j` jump); the second is the previously consumed token
(Python `tokens[i - 1]`, `""` at the start). -/
def normAux : Nat → String → List String → List String
  | _, _, [] => []
  | Nat.succ k, _, t :: rest => normAux k t rest
  | 0, prev, t :: rest =>
    if isNumberToken t then
      match runConvert prev (t :: rest.takeWhile isNumberToken)
          (rest.dropWhile isNumberToken) with
      | some n => natRepr n :: normAux (rest.takeWhile isNumberToken).length t rest
      | none => t :: normAux 0 t rest
    else t :: normAux 0 t rest

/-- The token-level normalizer (the loop of `normalize_vietnamese_numbers`). -/
def normTokens (ts : List String) : List String := normAux 0 "" ts

/-- `normalize_vietnamese_numbers(text)`. -/
def normalize_vietnamese_numbers (s : String) : String :=
  let tokens := pySplit s
  if tokens.isEmpty then s else joinSpace (normTokens tokens)

/-- `normalize_cancellation_terms(text)`. -/
def normalize_cancellation_terms (s : String) : String :=
  pyReplace (pyReplace s "hủy" "huỷ") "Hủy" "Huỷ"

/-- `normalize_vietnamese_transcript(text)`. -/
def normalize_vietnamese_transcript (s : String) : String :=
  let s1 := pyReplace s "tivi" "tv"
  let s2 := pyReplace s1 "ti vi" "tv"
  let s3 := pyReplace s2 "ti-vi" "tv"
  let s4 := pyReplace s3 "ti. vi" "tv"
  let s5 := pyReplace s4 "ga ra" "gara"
  normalize_cancellation_terms (normalize_vietnamese_numbers s5)

/-! ## post_process.py and the per-backend post-recognition pipelines

The `Model` descriptor lives outside `src/`; the spec's data model gives it a
`language_family` tag, the only field `finalize_transcript` reads.  The casing
function (`WordCasing.get_function(model.casing)`) and the meta decoder
(`decode_meta`) are external collaborators, passed in as opaque functions. -/
structure Model where
  language_family : String

/-- `finalize_transcript(model, text)` from post_process.py, parametrized by
the external `decode_meta`. -/
def finalize_transcript (decode_meta : String → String) (model : Model)
    (text : String) : String :=
  let normalized := pyStrip text
  if normalized = "" then ""
  else
    decode_meta (if model.language_family = "vi"
      then normalize_vietnamese_transcript normalized else normalized)

/-- The post-recognition tail of `transcribe_vosk` (transcribe_vosk.py lines
60-65): empty-fragments short-circuit, join, casing, `decode_meta` — with no
call to `finalize_transcript` and hence no Vietnamese normalization. -/
def voskPost (casing_func decode_meta : String → String)
    (fragments : List String) : String :=
  if fragments.isEmpty then ""
  else decode_meta (casing_func (joinSpace fragments))

/-- The post-recognition tail of `transcribe_vietasr` (transcribe_vietasr.py
lines 78-88), from the `_tokens_to_text` result on. -/
def vietasrPost (casing_func decode_meta : String → String) (model : Model)
    (text : String) : String :=
  if text = "" then ""
  else
    let t := pyStrip (casing_func text)
    if t = "" then "" else finalize_transcript decode_meta model t

/-- The post-recognition tail of `transcribe_chunkformer`
(transcribe_chunkformer.py lines 64-73), from the `_decode_to_text` result
on. -/
def chunkformerPost (casing_func decode_meta : String → String) (model : Model)
    (text : String) : String :=
  if text = "" then ""
  else
    let t := pyStrip (casing_func text)
    if t = "" then "" else finalize_transcript decode_meta model t

/-- The post-recognition tail of `transcribe_whisper` (transcribe_whisper.py
lines 95-100), from the recognized (already `.strip()`ed) text on. -/
def whisperPost (casing_func decode_meta : String → String) (model : Model)
    (text : String) : String :=
  if text = "" then ""
  else finalize_transcript decode_meta model (rstripDot (casing_func text))

/-! ## Audio accumulation and the empty-stream short-circuit

Audio chunks are byte sequences, modelled as `List Nat`.  The heavyweight
model inference (feature extraction, encoder, decoder) is an opaque injected
function per backend; the transcribe skeletons below count how many times it
is invoked. -/
/-- The chunk-collection loop shared by the buffering backends
(`if chunk: audio_bytes.extend(chunk)`). -/
def collectBytes (chunks : List (List Nat)) : List Nat :=
  chunks.foldl (fun acc c => if c.isEmpty then acc else acc ++ c) []

/-- `transcribe_vietasr`: resource loading elided (it happens before the
audio loop and is not inference), audio collection, the empty-stream
short-circuit, then one inference pass feeding the post-processing tail.
The second component counts inference invocations. -/
def vietasrTranscribe (cf dm : String → String) (m : Model)
    (infer : List Nat → String) (chunks : List (List Nat)) : String × Nat :=
  let audioBytes := collectBytes chunks
  if audioBytes.isEmpty then ("", 0)
  else (vietasrPost cf dm m (infer audioBytes), 1)

/-- `transcribe_chunkformer`: audio collection, empty-stream short-circuit,
then one `endless_decode` pass feeding the post-processing tail. -/
def chunkformerTranscribe (cf dm : String → String) (m : Model)
    (decode : List Nat → String) (chunks : List (List Nat)) : String × Nat :=
  let audioBytes := collectBytes chunks
  if audioBytes.isEmpty then ("", 0)
  else (chunkformerPost cf dm m (decode audioBytes), 1)

/-- `transcribe_whisper`: audio collection, empty-stream short-circuit, then
one transcriber pass feeding the post-processing tail. -/
def whisperTranscribe (cf dm : String → String) (m : Model)
    (infer : List Nat → String) (chunks : List (List Nat)) : String × Nat :=
  let audioBytes := collectBytes chunks
  if audioBytes.isEmpty then ("", 0)
  else (whisperPost cf dm m (infer audioBytes), 1)

/-- The streaming recognizer capability used by `transcribe_vosk`
(`KaldiRecognizer`): `acceptWaveform` is the inference operation, `result`
and `finalResult` extract the recognized-text field of the corresponding
JSON results. -/
structure VoskRecognizer (S : Type) where
  init : S
  acceptWaveform : S → List Nat → S × Bool
  result : S → S × String
  finalResult : S → String

/-- The chunk loop of `transcribe_vosk` (lines 45-53): empty chunks are
skipped; on an utterance boundary the partial text is stripped and, when
non-empty, appended.  The `Nat` counts `AcceptWaveform` invocations. -/
def voskLoop {S : Type} (R : VoskRecognizer S) :
    S → List String → Nat → List (List Nat) → S × List String × Nat
  | s, frs, n, [] => (s, frs, n)
  | s, frs, n, c :: cs =>
    if c.isEmpty then voskLoop R s frs n cs
    else
      let sa := R.acceptWaveform s c
      if sa.2 then
        let sr := R.result sa.1
        let t := pyStrip sr.2
        voskLoop R sr.1 (if t = "" then frs else frs ++ [t]) (n + 1) cs
      else voskLoop R sa.1 frs (n + 1) cs

/-- `transcribe_vosk` (lines 44-65): the chunk loop, the final flush
(`FinalResult`), and the post-processing tail. -/
def voskTranscribe {S : Type} (R : VoskRecognizer S)
    (cf dm : String → String) (chunks : List (List Nat)) : String × Nat :=
  let st := voskLoop R R.init [] 0 chunks
  let ft := pyStrip (R.finalResult st.1)
  let frs := if ft = "" then st.2.1 else st.2.1 ++ [ft]
  (voskPost cf dm frs, st.2.2)

/-! ## Claim C8 -/
/-- Filesystem/decode events of the `transcribe_chunkformer` temp-file
section. -/
inductive TmpEvent
  | create
  | decodeCall
  | unlink
  deriving DecidableEq

/-- Lines 46-62 of transcribe_chunkformer.py: `_write_temp_wav` creates the
scratch file, `endless_decode` runs inside a `try` whose `except` re-raises
as `TranscribingError`, and the surrounding `finally` unlinks the temp file
on both paths.  The decode outcome is the parameter. -/
def chunkformerDecodeSection (decode : Except String String) :
    Except String String × List TmpEvent :=
  let inner : Except String String :=
    match decode with
    | Except.ok s => Except.ok s
    | Except.error e => Except.error ("ChunkFormer transcription failed: " ++ e)
  (inner, TmpEvent.create :: TmpEvent.decodeCall :: [TmpEvent.unlink])

/-- Whether the temp file exists after the event trace. -/
def tempExistsAfter (trace : List TmpEvent) : Bool :=
  trace.foldl (fun b e =>
    match e with
    | TmpEvent.create => true
    | TmpEvent.unlink => false
    | TmpEvent.decodeCall => b) false

/-! ## The resource cache (`_load_resources` / `_RESOURCES`)

The process-wide cache is a mapping from the resolved model directory to the
loaded backend resources; Python's dict is modelled as an association list
with insertion at the end.  Filesystem side effects are recorded as an event
trace. -/
/-- Filesystem / loader events of one `_load_resources` call. -/
inductive FsEvent
  | mkdirParents (dir : String)
  | checkExists (path : String)
  | loaderInvoked (dir : String)
  deriving DecidableEq

/-- All three event kinds touch the disk (`Path.mkdir`, `Path.exists`, and
the loader's `torch.jit.load` / `_read_tokens` file reads). -/
def isDiskAccess : FsEvent → Bool
  | FsEvent.mkdirParents _ => true
  | FsEvent.checkExists _ => true
  | FsEvent.loaderInvoked _ => true

/-- `dict.get` on the cache. -/
def cacheGet {R : Type} : List (String × R) → String → Option R
  | [], _ => none
  | (k, v) :: rest, dir => if k = dir then some v else cacheGet rest dir

/-- The external environment of a load: which asset files exist, and the
backend loader (`torch.jit.load` + feature extractor + `_read_tokens`,
collapsed; its `Except` models the `TranscribingError` raised on an empty
token table or load failure). -/
structure LoadEnv (R : Type) where
  fileExists : String → Bool
  load : String → Except String R

/-- `_load_resources` from transcribe_vietasr.py (lines 116-168):
`model_dir.mkdir(parents=True, exist_ok=True)` first, then the cache lookup,
then (on a miss) the asset existence checks, the load, and the insertion.
Returns the event trace, the outcome, and the updated cache.
(`_load_resources` in transcribe_chunkformer.py and the inline cache in
`transcribe_vosk` have the same lookup-then-insert structure, with their own
pre-lookup disk access.) -/
def load_resources {R : Type} (env : LoadEnv R) (cache : List (String × R))
    (dir : String) : List FsEvent × Except String R × List (String × R) :=
  let evs := [FsEvent.mkdirParents dir]
  match cacheGet cache dir with
  | some r => (evs, Except.ok r, cache)
  | none =>
    let cp := dir ++ "/cpu_jit.pt"
    let tp := dir ++ "/tokens.txt"
    let evs := evs ++ [FsEvent.checkExists cp, FsEvent.checkExists tp]
    if env.fileExists cp && env.fileExists tp then
      match env.load dir with
      | Except.error e => (evs ++ [FsEvent.loaderInvoked dir], Except.error e, cache)
      | Except.ok r =>
        (evs ++ [FsEvent.loaderInvoked dir], Except.ok r, cache ++ [(dir, r)])
    else (evs, Except.error "Missing VietASR assets", cache)

/-- A sequence of transcription requests, each resolving and loading its
model directory; returns the accumulated event trace and the final cache. -/
def runRequests {R : Type} (env : LoadEnv R) :
    List (String × R) → List String → List FsEvent × List (String × R)
  | cache, [] => ([], cache)
  | cache, d :: ds =>
    let step := load_resources env cache d
    let rest := runRequests env step.2.2 ds
    (step.1 ++ rest.1, rest.2)

/-! ## `_read_tokens` (transcribe_vietasr.py lines 260-285) -/
/-- ASCII digit test. -/
def isAsciiDigit (c : Char) : Bool := 48 ≤ c.toNat && c.toNat ≤ 57

/-- Numeric value of an ASCII digit. -/
def digitVal (c : Char) : Nat := c.toNat - 48

/-- Digit-run parser for Python `int()`: digits with single underscores
allowed between digits. -/
def pyIntDigits : Nat → List Char → Option Nat
  | acc, [] => some acc
  | acc, c :: cs =>
    if isAsciiDigit c then pyIntDigits (acc * 10 + digitVal c) cs
    else if c = '_' then
      match cs with
      | [] => none
      | d :: cs2 =>
        if isAsciiDigit d then pyIntDigits (acc * 10 + digitVal d) cs2 else none
    else none

/-- The digit run must start with a digit (no leading underscore). -/
def pyIntDigitsTop (l : List Char) : Option Nat :=
  match l with
  | [] => none
  | c :: cs => if isAsciiDigit c then pyIntDigits (digitVal c) cs else none

/-- Python `int(s)` (decimal, optional sign, surrounding whitespace
stripped); `none` models the `ValueError` the loader catches. -/
def pyInt (s : String) : Option Int :=
  match (pyStrip s).data with
  | '+' :: rest => (pyIntDigitsTop rest).map (fun n => (n : Int))
  | '-' :: rest => (pyIntDigitsTop rest).map (fun n => -(n : Int))
  | l => (pyIntDigitsTop l).map (fun n => (n : Int))

/-- The per-line parsing of `_read_tokens`: `some (token, index)` when the
line is well-formed (non-blank, not a comment, at least two fields, last
field a non-negative integer), `none` when the loop `continue`s. -/
def lineAssign (line : String) : Option (String × Nat) :=
  let stripped := pyStrip line
  if stripped = "" then none
  else if stripped.data.head? = some '#' then none
  else
    let parts := pySplit stripped
    if parts.length < 2 then none
    else
      match pyInt (parts.getLastD "") with
      | none => none
      | some idx => if idx < 0 then none else some (parts.headD "", idx.toNat)

/-- The mutation of `_read_tokens` for a well-formed line: pad the list with
`""` up to the assigned index, then set it. -/
def applyAssign (tokens : List String) (p : String × Nat) : List String :=
  let t2 := if tokens.length ≤ p.2 then
      tokens ++ List.replicate (p.2 + 1 - tokens.length) ""
    else tokens
  t2.set p.2 p.1

/-- One iteration of the `_read_tokens` line loop. -/
def processLine (tokens : List String) (line : String) : List String :=
  match lineAssign line with
  | none => tokens
  | some p => applyAssign tokens p

/-- `_read_tokens`, over the file's lines. -/
def read_tokens (lines : List String) : List String :=
  lines.foldl processLine []

/-- The last well-formed assignment of index `i` among `as`. -/
def lastAssignIn (as : List (String × Nat)) (i : Nat) : Option String :=
  ((as.filter (fun p => p.2 == i)).getLast?).map Prod.fst

/-- All well-formed assignments of a file. -/
def assignsOf (lines : List String) : List (String × Nat) :=
  lines.filterMap lineAssign

/-- The last well-formed line assigning index `i`, if any. -/
def lastAssign (lines : List String) (i : Nat) : Option String :=
  lastAssignIn (assignsOf lines) i

/-- The loop invariant of `_read_tokens`: the token list agrees with the
last assignment so far at every index, unassigned in-range indices hold
`""`, and the length is the least upper bound of the assigned indices. -/
def ReadInv (as : List (String × Nat)) (tokens : List String) : Prop :=
  (∀ j, (∀ tk, lastAssignIn as j = some tk → tokens.getD j "" = tk) ∧
    (lastAssignIn as j = none → tokens.getD j "" = "")) ∧
  (∀ j, j < tokens.length ↔ ∃ p ∈ as, j ≤ p.2)

/-! ## `_greedy_search` (transcribe_vietasr.py lines 181-243)

The packed encoder output is abstracted by its per-step batch-size list and
the joiner arg-max function `am step idx ctx`: the arg-max token id the
joiner produces at time step `step` for sorted batch element `idx` when the
decoder output was computed from the context `ctx` (the element's last
`context_size` hypothesis tokens).  The decoder/joiner pair is pure, so the
code's reuse of a stale decoder output when no token was emitted is
equivalent to recomputation from the unchanged contexts.  The state carries
the hypotheses and the contexts the current decoder output was computed
from. -/
/-- Python `h[-n:]`. -/
def lastN {α : Type} (n : Nat) (l : List α) : List α := l.drop (l.length - n)

/-- One batch element's hypothesis update at one decode step (lines
224-227). -/
def stepElem (am : Nat → Nat → List Nat → Nat) (t blank : Nat)
    (dctx : List (List Nat)) (b : Nat) (a : Nat) (h : List Nat) : List Nat :=
  if a < b then
    (if am t a (dctx.getD a []) ≠ blank
     then h ++ [am t a (dctx.getD a [])] else h)
  else h

/-- The per-step hypothesis updates
(`for idx, token_id in enumerate(top_ids)`). -/
def updateHyps (am : Nat → Nat → List Nat → Nat) (t blank : Nat)
    (dctx : List (List Nat)) (b : Nat) : Nat → List (List Nat) → List (List Nat)
  | _, [] => []
  | idx, h :: hs =>
    stepElem am t blank dctx b idx h :: updateHyps am t blank dctx b (idx + 1) hs

/-- The `emitted` flag of one step. -/
def anyEmit (am : Nat → Nat → List Nat → Nat) (t blank : Nat)
    (dctx : List (List Nat)) (b : Nat) : Bool :=
  (List.range b).any (fun idx => am t idx (dctx.getD idx []) != blank)

/-- One iteration of the `for current_batch in batch_size_list` loop (lines
213-236): update the active hypotheses from the current decoder contexts,
and recompute the decoder output (for the `current_batch` active elements)
only when some element emitted. -/
def greedyStep (am : Nat → Nat → List Nat → Nat) (blank ctxSize : Nat)
    (st : List (List Nat) × List (List Nat)) (p : Nat × Nat) :
    List (List Nat) × List (List Nat) :=
  let newHyps := updateHyps am p.1 blank st.2 p.2 0 st.1
  if anyEmit am p.1 blank st.2 p.2 then
    (newHyps, (newHyps.take p.2).map (lastN ctxSize))
  else (newHyps, st.2)

/-- `_greedy_search`: blank-seeded hypotheses, the step loop, the
`context_size` strip, and the un-sort through `unsorted_indices`. -/
def greedy_search (am : Nat → Nat → List Nat → Nat)
    (blank ctxSize batch : Nat) (bs uns : List Nat) : List (List Nat) :=
  if bs.isEmpty then []
  else
    let seed := List.replicate ctxSize blank
    let final := (bs.enum).foldl (greedyStep am blank ctxSize)
      (List.replicate batch seed, List.replicate batch seed)
    let sortedAns := final.1.map (fun h => h.drop ctxSize)
    (List.range batch).map (fun i => sortedAns.getD (uns.getD i 0) [])

/-- Specification-side emission: the non-blank arg-max token ids emitted for
element `j`, in step order, with the context always the last `context_size`
tokens of the blank seed followed by the emissions so far. -/
def emitStep (am : Nat → Nat → List Nat → Nat) (blank ctxSize j : Nat)
    (acc : List Nat) (p : Nat × Nat) : List Nat :=
  if j < p.2 then
    (if am p.1 j (lastN ctxSize (List.replicate ctxSize blank ++ acc)) ≠ blank
     then acc ++ [am p.1 j (lastN ctxSize (List.replicate ctxSize blank ++ acc))]
     else acc)
  else acc

/-- The full emission sequence of element `j`. -/
def emitSpec (am : Nat → Nat → List Nat → Nat) (blank ctxSize j : Nat)
    (bs : List Nat) : List Nat :=
  (bs.enum).foldl (emitStep am blank ctxSize j) []

/-- A well-shaped token: non-empty and whitespace-free. -/
def okTok (t : List Char) : Prop := t ≠ [] ∧ ∀ c ∈ t, isPySpace c = false

/-- Char-level single-space join, mirroring `joinSpace`. -/
def charJoin : List (List Char) → List Char
  | [] => []
  | [t] => t
  | t :: u :: ts => t ++ ' ' :: charJoin (u :: ts)

/-- Head-of-list guard: the list is empty or does not start with a number
token (the shape of the remainder after a maximal run). -/
def headOk (s : List String) : Bool :=
  match s with
  | [] => true
  | x :: _ => !(isNumberToken x)

/-! ### Whitespace-stripping lemmas -/
theorem dropWhile_rdropWhile_dropWhile (p : Char → Bool) (l : List Char) :
    List.dropWhile p (List.rdropWhile p (List.dropWhile p l)) =
      List.rdropWhile p (List.dropWhile p l) := by
  rw [List.dropWhile_eq_self_iff]
  intro hl hp
  have hpre : List.rdropWhile p (List.dropWhile p l) <+: List.dropWhile p l :=
    List.rdropWhile_prefix p _
  have hlen : 0 < (List.dropWhile p l).length :=
    lt_of_lt_of_le hl hpre.length_le
  have hg := hpre.getElem hl
  rw [List.get_eq_getElem] at hp
  rw [hg] at hp
  exact List.dropWhile_get_zero_not p l hlen (by simpa using hp)

theorem pyStrip_idem (s : String) : pyStrip (pyStrip s) = pyStrip s := by
  show String.mk _ = String.mk _
  rw [pyStrip]
  rw [dropWhile_rdropWhile_dropWhile, List.rdropWhile_idempotent]

theorem pyStrip_finalize (decode_meta : String → String) (model : Model)
    (s : String) :
    finalize_transcript decode_meta model (pyStrip s) =
      (if pyStrip s = "" then ""
       else decode_meta (if model.language_family = "vi"
         then normalize_vietnamese_transcript (pyStrip s) else pyStrip s)) := by
  rw [finalize_transcript, pyStrip_idem]

theorem rstripDot_no_trailing_dot (s : String) :
    (rstripDot s).data.getLast? ≠ some '.' := by
  intro hc
  have hne : (rstripDot s).data ≠ [] := by
    intro h0
    rw [h0] at hc
    simp at hc
  rw [List.getLast?_eq_getLast _ hne] at hc
  rw [Option.some_inj] at hc
  apply List.rdropWhile_last_not (fun c => c == '.') s.data hne
  show ((rstripDot s).data.getLast hne == '.') = true
  rw [hc]
  rfl

theorem collectBytes_all_empty (chunks : List (List Nat))
    (hc : ∀ c ∈ chunks, c = []) : collectBytes chunks = [] := by
  have haux : ∀ (l : List (List Nat)), (∀ c ∈ l, c = []) →
      ∀ acc : List Nat, l.foldl (fun acc c => if c.isEmpty then acc else acc ++ c) acc = acc := by
    intro l
    induction l with
    | nil => intro _ acc; rfl
    | cons c cs ih =>
      intro h acc
      have hcnil : c = [] := h c (List.mem_cons_self c cs)
      simp only [List.foldl_cons, hcnil]
      exact ih (fun d hd => h d (List.mem_cons_of_mem c hd)) acc
  exact haux chunks hc []

theorem voskLoop_all_empty {S : Type} (R : VoskRecognizer S)
    (chunks : List (List Nat)) (hc : ∀ c ∈ chunks, c = []) :
    ∀ (s : S) (frs : List String) (n : Nat),
      voskLoop R s frs n chunks = (s, frs, n) := by
  induction chunks with
  | nil => intro s frs n; rfl
  | cons c cs ih =>
    intro s frs n
    have hcnil : c = [] := hc c (List.mem_cons_self c cs)
    rw [voskLoop, if_pos (by simp [hcnil])]
    exact ih (fun d hd => hc d (List.mem_cons_of_mem c hd)) s frs n

/-! ## Claim C2 -/
/-- Claim C2, confirmed: when the audio stream delivers zero chunks or only
empty chunks, every backend returns the empty string with zero inference
invocations.  For Vosk the utterance-boundary inference (`AcceptWaveform`)
is never invoked and the final flush operates on the untouched recognizer;
the external recognizer contract that flushing a recognizer that never
received audio yields no text is the hypothesis `hR`. -/
theorem c2_empty_audio {S : Type} (R : VoskRecognizer S)
    (cf dm : String → String) (m : Model)
    (inferV inferC inferW : List Nat → String)
    (chunks : List (List Nat)) (hc : ∀ c ∈ chunks, c = [])
    (hR : pyStrip (R.finalResult R.init) = "") :
    vietasrTranscribe cf dm m inferV chunks = ("", 0) ∧
    chunkformerTranscribe cf dm m inferC chunks = ("", 0) ∧
    whisperTranscribe cf dm m inferW chunks = ("", 0) ∧
    voskTranscribe R cf dm chunks = ("", 0) := by
  have hb := collectBytes_all_empty chunks hc
  refine ⟨?_, ?_, ?_, ?_⟩
  · rw [vietasrTranscribe, hb]; rfl
  · rw [chunkformerTranscribe, hb]; rfl
  · rw [whisperTranscribe, hb]; rfl
  · rw [voskTranscribe, voskLoop_all_empty R chunks hc, hR]
    rfl

/-- Witness for C2: a two-empty-chunk stream against a trivial recognizer. -/
theorem c2_witness :
    vietasrTranscribe (fun s => s) (fun s => s) ⟨"vi"⟩ (fun _ => "x")
        [[], []] = ("", 0) ∧
    chunkformerTranscribe (fun s => s) (fun s => s) ⟨"vi"⟩ (fun _ => "x")
        [[], []] = ("", 0) ∧
    whisperTranscribe (fun s => s) (fun s => s) ⟨"vi"⟩ (fun _ => "x")
        [[], []] = ("", 0) ∧
    voskTranscribe ⟨(), fun _ _ => ((), false), fun _ => ((), ""), fun _ => ""⟩
        (fun s => s) (fun s => s) [[], []] = ("", 0) :=
  c2_empty_audio ⟨(), fun _ _ => ((), false), fun _ => ((), ""), fun _ => ""⟩
    (fun s => s) (fun s => s) ⟨"vi"⟩ (fun _ => "x") (fun _ => "x") (fun _ => "x")
    [[], []] (by intro c hcm; simp at hcm; simp [hcm]) (by decide)

/-- Claim C8, confirmed: for both decode outcomes, the temp WAV file created
by `_write_temp_wav` is removed before the section returns or propagates an
error, the unlink follows the creation, and a decode failure is re-raised
wrapped as a `TranscribingError`. -/
theorem c8_temp_cleanup (decode : Except String String) :
    tempExistsAfter (chunkformerDecodeSection decode).2 = false ∧
    (chunkformerDecodeSection decode).2 =
      [TmpEvent.create, TmpEvent.decodeCall, TmpEvent.unlink] ∧
    (∀ s, decode = Except.ok s →
      (chunkformerDecodeSection decode).1 = Except.ok s) ∧
    (∀ e, decode = Except.error e →
      (chunkformerDecodeSection decode).1 =
        Except.error ("ChunkFormer transcription failed: " ++ e)) := by
  refine ⟨?_, rfl, ?_, ?_⟩
  · cases decode <;> rfl
  · intro s hs
    rw [hs]
    rfl
  · intro e he
    rw [he]
    rfl

/-- Witness for C8 at a failing decode. -/
theorem c8_witness :
    tempExistsAfter (chunkformerDecodeSection (Except.error "boom")).2 = false ∧
    (chunkformerDecodeSection (Except.error "boom")).1 =
      Except.error ("ChunkFormer transcription failed: " ++ "boom") :=
  ⟨(c8_temp_cleanup (Except.error "boom")).1,
   (c8_temp_cleanup (Except.error "boom")).2.2.2 "boom" rfl⟩

theorem cacheGet_append_of_isSome {R : Type} (cache tail : List (String × R))
    (dir : String) (r : R) (h : cacheGet cache dir = some r) :
    cacheGet (cache ++ tail) dir = some r := by
  induction cache with
  | nil => simp [cacheGet] at h
  | cons p rest ih =>
    rw [List.cons_append]
    rw [cacheGet] at h ⊢
    by_cases hk : p.1 = dir
    · simpa [hk] using h
    · rw [if_neg hk] at h ⊢
      exact ih h

theorem cacheGet_eq_none_not_mem {R : Type} (cache : List (String × R))
    (dir : String) (h : cacheGet cache dir = none) :
    dir ∉ cache.map Prod.fst := by
  induction cache with
  | nil => simp
  | cons p rest ih =>
    rw [cacheGet] at h
    by_cases hk : p.1 = dir
    · rw [if_pos hk] at h
      exact absurd h (by simp)
    · rw [if_neg hk] at h
      simp only [List.map_cons, List.mem_cons]
      rintro (hd | hd)
      · exact hk hd.symm
      · exact ih h hd

theorem load_resources_nodup {R : Type} (env : LoadEnv R)
    (cache : List (String × R)) (dir : String) :
    ((load_resources env cache dir).2.2).map Prod.fst =
        cache.map Prod.fst ∨
      ((load_resources env cache dir).2.2).map Prod.fst =
        cache.map Prod.fst ++ [dir] ∧ cacheGet cache dir = none := by
  rw [load_resources]
  cases hg : cacheGet cache dir with
  | some r => left; rfl
  | none =>
    by_cases hf : env.fileExists (dir ++ "/cpu_jit.pt") &&
        env.fileExists (dir ++ "/tokens.txt")
    · rw [if_pos hf]
      cases hl : env.load dir with
      | error e => left; rfl
      | ok r => right; exact ⟨by simp, rfl⟩
    · rw [if_neg hf]
      left; rfl

theorem runRequests_nodup {R : Type} (env : LoadEnv R) (ds : List String) :
    ∀ cache : List (String × R), (cache.map Prod.fst).Nodup →
      (((runRequests env cache ds).2).map Prod.fst).Nodup := by
  induction ds with
  | nil => intro cache h; exact h
  | cons d rest ih =>
    intro cache h
    rw [runRequests]
    apply ih
    rcases load_resources_nodup env cache d with heq | ⟨heq, hnone⟩
    · rw [heq]; exact h
    · rw [heq, List.nodup_append]
      refine ⟨h, List.nodup_singleton d, ?_⟩
      intro x hx hx2
      simp only [List.mem_singleton] at hx2
      subst hx2
      exact cacheGet_eq_none_not_mem cache x hnone hx

/-! ## Claim C3 -/
/-- Claim C3 is false as stated: even on a cache hit, `_load_resources`
performs disk access before the lookup — `model_dir.mkdir(parents=True,
exist_ok=True)` runs on every call (transcribe_vietasr.py line 118, and
likewise transcribe_chunkformer.py line 111; `transcribe_vosk` checks
`model_dir.is_dir()` before its lookup).  Concretely, with the key `"d"`
already cached, the call's event trace contains a disk access. -/
theorem c3_counterexample :
    ∃ e ∈ (load_resources (R := Unit) ⟨fun _ => true, fun _ => Except.ok ()⟩
        [("d", ())] "d").1, isDiskAccess e = true := by
  refine ⟨FsEvent.mkdirParents "d", ?_, rfl⟩
  decide

/-- Claim C3, amended: on a cache hit the previously loaded entry is
returned unchanged, the cache is not modified and the loader is not invoked
again — but the call still touches disk (the directory-creation side effect
precedes the lookup).  Across sequential requests the cache keeps at most
one loaded resource set per model directory (its key list stays
duplicate-free). -/
theorem c3_cache_amended {R : Type} (env : LoadEnv R)
    (cache : List (String × R)) (dir : String) (r : R)
    (ds : List String)
    (hhit : cacheGet cache dir = some r)
    (hnodup : (cache.map Prod.fst).Nodup) :
    load_resources env cache dir = ([FsEvent.mkdirParents dir], Except.ok r, cache) ∧
    (∀ d, FsEvent.loaderInvoked d ∉ (load_resources env cache dir).1) ∧
    (((runRequests env cache ds).2).map Prod.fst).Nodup := by
  have hcall : load_resources env cache dir =
      ([FsEvent.mkdirParents dir], Except.ok r, cache) := by
    rw [load_resources, hhit]
  refine ⟨hcall, ?_, runRequests_nodup env ds cache hnodup⟩
  intro d
  rw [hcall]
  simp

/-- Witness for C3 (amended): a singleton cache hit with a two-request
sequence. -/
theorem c3_witness :
    load_resources (R := Unit) ⟨fun _ => true, fun _ => Except.ok ()⟩
        [("d", ())] "d" =
      ([FsEvent.mkdirParents "d"], Except.ok (), [("d", ())]) ∧
    (∀ d, FsEvent.loaderInvoked d ∉
      (load_resources (R := Unit) ⟨fun _ => true, fun _ => Except.ok ()⟩
        [("d", ())] "d").1) ∧
    (((runRequests (R := Unit) ⟨fun _ => true, fun _ => Except.ok ()⟩
        [("d", ())] ["d", "e"]).2).map Prod.fst).Nodup :=
  c3_cache_amended ⟨fun _ => true, fun _ => Except.ok ()⟩ [("d", ())] "d" ()
    ["d", "e"] (by decide) (by decide)

theorem getD_set_self (l : List String) (i : Nat) (a : String)
    (h : i < l.length) : (l.set i a).getD i "" = a := by
  rw [List.getD_eq_getElem _ _ (by simpa using h)]
  exact List.getElem_set_self (by simpa using h)

theorem getD_set_ne (l : List String) (i j : Nat) (a : String) (h : i ≠ j) :
    (l.set i a).getD j "" = l.getD j "" := by
  by_cases hj : j < l.length
  · rw [List.getD_eq_getElem _ _ (by simpa using hj),
      List.getD_eq_getElem _ _ hj]
    exact List.getElem_set_ne h _
  · rw [List.getD_eq_default _ _ (by simp; omega),
      List.getD_eq_default _ _ (by omega)]

theorem getD_pad (tokens : List String) (n j : Nat) :
    (tokens ++ List.replicate n "").getD j "" = tokens.getD j "" := by
  by_cases hj : j < tokens.length
  · rw [List.getD_eq_getElem (tokens ++ List.replicate n "") _
      (by simp; omega), List.getD_eq_getElem _ _ hj]
    exact List.getElem_append_left hj
  · have hr : tokens.getD j "" = "" := List.getD_eq_default _ _ (by omega)
    rw [hr]
    by_cases hj2 : j < tokens.length + n
    · rw [List.getD_eq_getElem (tokens ++ List.replicate n "") _ (by simp; omega)]
      rw [List.getElem_append_right (by omega)]
      exact List.getElem_replicate _ _
    · exact List.getD_eq_default _ _ (by simp; omega)

theorem applyAssign_length (tokens : List String) (p : String × Nat) :
    (applyAssign tokens p).length = max tokens.length (p.2 + 1) := by
  rw [applyAssign]
  by_cases h : tokens.length ≤ p.2
  · rw [if_pos h]
    simp only [List.length_set, List.length_append, List.length_replicate]
    omega
  · rw [if_neg h]
    simp only [List.length_set]
    omega

theorem applyAssign_getD_self (tokens : List String) (tok : String) (i : Nat) :
    (applyAssign tokens (tok, i)).getD i "" = tok := by
  rw [applyAssign]
  by_cases h : tokens.length ≤ i
  · rw [if_pos h]
    exact getD_set_self _ _ _ (by simp; omega)
  · rw [if_neg h]
    exact getD_set_self _ _ _ (by omega)

theorem applyAssign_getD_ne (tokens : List String) (tok : String) (i j : Nat)
    (h : i ≠ j) : (applyAssign tokens (tok, i)).getD j "" = tokens.getD j "" := by
  rw [applyAssign]
  by_cases hle : tokens.length ≤ i
  · rw [if_pos hle, getD_set_ne _ _ _ _ h, getD_pad]
  · rw [if_neg hle, getD_set_ne _ _ _ _ h]

theorem lastAssignIn_append_self (as : List (String × Nat)) (tok : String)
    (i : Nat) : lastAssignIn (as ++ [(tok, i)]) i = some tok := by
  rw [lastAssignIn, List.filter_append]
  have hf : List.filter (fun p => p.2 == i) [(tok, i)] = [(tok, i)] := by simp
  rw [hf, List.getLast?_append_of_ne_nil _ (by simp)]
  simp

theorem lastAssignIn_append_ne (as : List (String × Nat)) (tok : String)
    (i j : Nat) (h : i ≠ j) :
    lastAssignIn (as ++ [(tok, i)]) j = lastAssignIn as j := by
  rw [lastAssignIn, lastAssignIn, List.filter_append]
  have hf : List.filter (fun p => p.2 == j) [(tok, i)] = [] := by simp [h]
  rw [hf, List.append_nil]

theorem readInv_step (as : List (String × Nat)) (tokens : List String)
    (tok : String) (i : Nat) (h : ReadInv as tokens) :
    ReadInv (as ++ [(tok, i)]) (applyAssign tokens (tok, i)) := by
  obtain ⟨h1, h2⟩ := h
  constructor
  · intro j
    constructor
    · intro tk hlast
      by_cases hji : j = i
      · subst hji
        rw [lastAssignIn_append_self] at hlast
        rw [Option.some_inj] at hlast
        rw [← hlast]
        exact applyAssign_getD_self tokens tok j
      · rw [lastAssignIn_append_ne as tok i j (fun he => hji he.symm)] at hlast
        rw [applyAssign_getD_ne tokens tok i j (fun he => hji he.symm)]
        exact (h1 j).1 tk hlast
    · intro hnone
      by_cases hji : j = i
      · subst hji
        rw [lastAssignIn_append_self] at hnone
        exact absurd hnone (by simp)
      · rw [lastAssignIn_append_ne as tok i j (fun he => hji he.symm)] at hnone
        rw [applyAssign_getD_ne tokens tok i j (fun he => hji he.symm)]
        exact (h1 j).2 hnone
  · intro j
    rw [applyAssign_length]
    constructor
    · intro hj
      rcases Nat.lt_or_ge j tokens.length with hlt | hge
      · obtain ⟨p, hp, hle⟩ := (h2 j).1 hlt
        exact ⟨p, List.mem_append_left _ hp, hle⟩
      · refine ⟨(tok, i), List.mem_append_right _ (by simp), ?_⟩
        simp only [Nat.max_def] at hj
        split at hj <;> omega
    · rintro ⟨p, hp, hle⟩
      rcases List.mem_append.mp hp with hp | hp
      · have := (h2 j).2 ⟨p, hp, hle⟩
        omega
      · simp only [List.mem_singleton] at hp
        subst hp
        simp only [Nat.max_def]
        split <;> omega

theorem read_tokens_loop_inv (lines : List String) :
    ∀ (as : List (String × Nat)) (tokens : List String), ReadInv as tokens →
      ReadInv (as ++ lines.filterMap lineAssign)
        (lines.foldl processLine tokens) := by
  induction lines with
  | nil => intro as tokens h; simpa using h
  | cons l rest ih =>
    intro as tokens h
    rw [List.foldl_cons, List.filterMap_cons]
    cases hl : lineAssign l with
    | none =>
      simp only [processLine, hl]
      exact ih as tokens h
    | some p =>
      simp only [processLine, hl]
      have hstep := readInv_step as tokens p.1 p.2 h
      have h3 := ih (as ++ [(p.1, p.2)]) (applyAssign tokens (p.1, p.2)) hstep
      rw [List.append_assoc] at h3
      simpa using h3

theorem read_tokens_inv (lines : List String) :
    ReadInv (assignsOf lines) (read_tokens lines) := by
  have hbase : ReadInv ([] : List (String × Nat)) ([] : List String) := by
    constructor
    · intro j
      constructor
      · intro tk hlast
        exact absurd hlast (by simp [lastAssignIn])
      · intro _
        rfl
    · intro j
      simp
  have := read_tokens_loop_inv lines [] [] hbase
  simpa [read_tokens, assignsOf] using this

/-! ## Claim C7 -/
/-- Claim C7 is false as stated: when two well-formed lines assign the same
index, the later assignment overwrites the earlier one
(`tokens[index] = token`, transcribe_vietasr.py line 283), so the index
assigned by the earlier line does not hold that line's token.  Concretely,
for the file `["a 0", "b 0"]` the line `"a 0"` is well-formed and assigns
index 0 the token `"a"`, but the loader returns `["b"]`. -/
theorem c7_counterexample :
    lineAssign "a 0" = some ("a", 0) ∧
    read_tokens ["a 0", "b 0"] = ["b"] ∧
    (read_tokens ["a 0", "b 0"]).getD 0 "" ≠ "a" := by
  refine ⟨by decide, by decide, by decide⟩

/-- Claim C7, amended: for every token-definition file content, including
malformed or sparse files, the loader is a total function (it never raises:
blank, comment, short and unparsable lines are skipped, as is a negative
index), and it returns a list in which every index assigned by a well-formed
line holds the token of the *last* such line, every in-range index assigned
by no well-formed line holds the empty string, and the length is one more
than the largest assigned index (zero when nothing is assigned). -/
theorem c7_read_tokens_amended (lines : List String) (i : Nat) :
    (∀ tok, lastAssign lines i = some tok →
      (read_tokens lines).getD i "" = tok) ∧
    (lastAssign lines i = none → (read_tokens lines).getD i "" = "") ∧
    (i < (read_tokens lines).length ↔ ∃ p ∈ assignsOf lines, i ≤ p.2) := by
  have h := read_tokens_inv lines
  exact ⟨(h.1 i).1, (h.1 i).2, h.2 i⟩

/-- Witness for C7 (amended): in the file `["a 0", "b 0", "c 3"]` index 0
holds the last assignment `"b"`. -/
theorem c7_witness : (read_tokens ["a 0", "b 0", "c 3"]).getD 0 "" = "b" :=
  (c7_read_tokens_amended ["a 0", "b 0", "c 3"] 0).1 "b" (by decide)

theorem drop_replicate_append {α : Type} (n : Nat) (a : α) (l : List α) :
    (List.replicate n a ++ l).drop n = l := by
  have h := List.drop_left (List.replicate n a) l
  rwa [List.length_replicate] at h

theorem updateHyps_length (am : Nat → Nat → List Nat → Nat) (t blank : Nat)
    (dctx : List (List Nat)) (b : Nat) :
    ∀ (idx : Nat) (hyps : List (List Nat)),
      (updateHyps am t blank dctx b idx hyps).length = hyps.length := by
  intro idx hyps
  induction hyps generalizing idx with
  | nil => rfl
  | cons h hs ih => simp [updateHyps, ih]

theorem updateHyps_getD (am : Nat → Nat → List Nat → Nat) (t blank : Nat)
    (dctx : List (List Nat)) (b : Nat) :
    ∀ (hyps : List (List Nat)) (idx j : Nat), j < hyps.length →
      (updateHyps am t blank dctx b idx hyps).getD j [] =
        stepElem am t blank dctx b (idx + j) (hyps.getD j []) := by
  intro hyps
  induction hyps with
  | nil => intro idx j hj; simp at hj
  | cons h hs ih =>
    intro idx j hj
    cases j with
    | zero => rfl
    | succ j =>
      rw [updateHyps, List.getD_cons_succ, List.getD_cons_succ,
        ih (idx + 1) j (by simpa using hj)]
      have harith : idx + 1 + j = idx + (j + 1) := by omega
      rw [harith]

theorem updateHyps_no_emit (am : Nat → Nat → List Nat → Nat) (t blank : Nat)
    (dctx : List (List Nat)) (b : Nat)
    (hall : ∀ a, a < b → am t a (dctx.getD a []) = blank) :
    ∀ (idx : Nat) (hyps : List (List Nat)),
      updateHyps am t blank dctx b idx hyps = hyps := by
  intro idx hyps
  induction hyps generalizing idx with
  | nil => rfl
  | cons h hs ih =>
    rw [updateHyps, ih]
    have hs1 : stepElem am t blank dctx b idx h = h := by
      rw [stepElem]
      by_cases hb : idx < b
      · rw [if_pos hb, hall idx hb]
        simp
      · rw [if_neg hb]
    rw [hs1]

theorem getD_map_dropCtx (f : List Nat → List Nat) (l : List (List Nat))
    (j : Nat) (hj : j < l.length) :
    (l.map f).getD j [] = f (l.getD j []) := by
  rw [List.getD_eq_getElem (l.map f) _ (by simpa using hj),
    List.getD_eq_getElem _ _ hj]
  exact List.getElem_map f

theorem getD_take_lt (l : List (List Nat)) (b j : Nat) (hj : j < b)
    (hl : j < l.length) : (l.take b).getD j [] = l.getD j [] := by
  rw [List.getD_eq_getElem (l.take b) _ (by simp; omega),
    List.getD_eq_getElem _ _ hl]
  exact List.getElem_take l

theorem getD_replicate_lt (n j : Nat) (a : List Nat) (h : j < n) :
    (List.replicate n a).getD j [] = a := by
  rw [List.getD_eq_getElem _ _ (by simpa using h)]
  exact List.getElem_replicate _ _

theorem greedy_fold_length (am : Nat → Nat → List Nat → Nat)
    (blank ctxSize : Nat) :
    ∀ (ps : List (Nat × Nat)) (st : List (List Nat) × List (List Nat)),
      (ps.foldl (greedyStep am blank ctxSize) st).1.length = st.1.length := by
  intro ps
  induction ps with
  | nil => intro st; rfl
  | cons p rest ih =>
    intro st
    rw [List.foldl_cons, ih]
    rw [greedyStep]
    by_cases hem : anyEmit am p.1 blank st.2 p.2
    · rw [if_pos hem]
      exact updateHyps_length am p.1 blank st.2 p.2 0 st.1
    · rw [if_neg hem]
      exact updateHyps_length am p.1 blank st.2 p.2 0 st.1

theorem greedy_loop (am : Nat → Nat → List Nat → Nat)
    (blank ctxSize batch : Nat) :
    ∀ (bs : List Nat) (t0 : Nat) (hyps dctx : List (List Nat))
      (E : Nat → List Nat),
      hyps.length = batch →
      (∀ j, j < batch →
        hyps.getD j [] = List.replicate ctxSize blank ++ E j) →
      (∀ j, j < dctx.length → dctx.getD j [] = lastN ctxSize (hyps.getD j [])) →
      (∀ b, b ∈ bs → b ≤ dctx.length) →
      (∀ b, b ∈ bs → b ≤ batch) →
      List.Pairwise (fun a b => b ≤ a) bs →
      ∀ j, j < batch →
        ((List.enumFrom t0 bs).foldl (greedyStep am blank ctxSize)
            (hyps, dctx)).1.getD j [] =
          List.replicate ctxSize blank ++
            (List.enumFrom t0 bs).foldl (emitStep am blank ctxSize j) (E j) := by
  intro bs
  induction bs with
  | nil =>
    intro t0 hyps dctx E hlen hE hctx hd he hp j hj
    simpa using hE j hj
  | cons b rest ih =>
    intro t0 hyps dctx E hlen hE hctx hd he hp j hj
    have henum : List.enumFrom t0 (b :: rest) =
        (t0, b) :: List.enumFrom (t0 + 1) rest := rfl
    rw [henum, List.foldl_cons, List.foldl_cons]
    have hbB : b ≤ batch := he b (List.mem_cons_self _ _)
    have hbD : b ≤ dctx.length := hd b (List.mem_cons_self _ _)
    have hrestB : ∀ b2, b2 ∈ rest → b2 ≤ b :=
      (List.pairwise_cons.mp hp).1
    have hNHlen : (updateHyps am t0 blank dctx b 0 hyps).length = batch := by
      rw [updateHyps_length, hlen]
    have hnewE : ∀ j2, j2 < batch →
        (updateHyps am t0 blank dctx b 0 hyps).getD j2 [] =
          List.replicate ctxSize blank ++
            emitStep am blank ctxSize j2 (E j2) (t0, b) := by
      intro j2 hj2
      rw [updateHyps_getD am t0 blank dctx b hyps 0 j2 (by omega),
        Nat.zero_add, stepElem, emitStep]
      by_cases hb2 : j2 < b
      · rw [if_pos hb2, if_pos hb2]
        have hdj : dctx.getD j2 [] =
            lastN ctxSize (List.replicate ctxSize blank ++ E j2) := by
          rw [hctx j2 (by omega), hE j2 hj2]
        rw [hdj, hE j2 hj2]
        by_cases ht : am t0 j2
            (lastN ctxSize (List.replicate ctxSize blank ++ E j2)) ≠ blank
        · rw [if_pos ht, if_pos ht, List.append_assoc]
        · rw [if_neg ht, if_neg ht]
      · rw [if_neg hb2, if_neg hb2]
        exact hE j2 hj2
    by_cases hem : anyEmit am t0 blank dctx b
    · have hstep : greedyStep am blank ctxSize (hyps, dctx) (t0, b) =
          (updateHyps am t0 blank dctx b 0 hyps,
           ((updateHyps am t0 blank dctx b 0 hyps).take b).map (lastN ctxSize)) := by
        rw [greedyStep, if_pos hem]
      rw [hstep]
      have hdlen : (((updateHyps am t0 blank dctx b 0 hyps).take b).map
          (lastN ctxSize)).length = b := by
        simp only [List.length_map, List.length_take, hNHlen]
        omega
      refine ih (t0 + 1) _ _
        (fun j2 => emitStep am blank ctxSize j2 (E j2) (t0, b))
        hNHlen hnewE ?_ ?_ ?_ hp.of_cons j hj
      · intro j2 hj2
        rw [hdlen] at hj2
        rw [getD_map_dropCtx _ _ _ (by simp [hNHlen]; omega),
          getD_take_lt _ _ _ hj2 (by omega)]
      · intro b2 hb2
        rw [hdlen]
        exact hrestB b2 hb2
      · intro b2 hb2
        exact he b2 (List.mem_cons_of_mem _ hb2)
    · have hall : ∀ a, a < b → am t0 a (dctx.getD a []) = blank := by
        intro a ha
        have hem2 : anyEmit am t0 blank dctx b = false :=
          Bool.not_eq_true _ |>.mp hem
        rw [anyEmit] at hem2
        have := List.any_eq_false.mp hem2 a (List.mem_range.mpr ha)
        simpa using this
      have hNH : updateHyps am t0 blank dctx b 0 hyps = hyps :=
        updateHyps_no_emit am t0 blank dctx b hall 0 hyps
      have hstep : greedyStep am blank ctxSize (hyps, dctx) (t0, b) =
          (hyps, dctx) := by
        rw [greedyStep, if_neg hem, hNH]
      rw [hstep]
      have hEkeep : ∀ j2, j2 < batch →
          hyps.getD j2 [] = List.replicate ctxSize blank ++
            emitStep am blank ctxSize j2 (E j2) (t0, b) := by
        intro j2 hj2
        rw [← hNH]
        exact hnewE j2 hj2
      refine ih (t0 + 1) hyps dctx
        (fun j2 => emitStep am blank ctxSize j2 (E j2) (t0, b))
        hlen hEkeep hctx ?_ ?_ hp.of_cons j hj
      · intro b2 hb2
        exact hd b2 (List.mem_cons_of_mem _ hb2)
      · intro b2 hb2
        exact he b2 (List.mem_cons_of_mem _ hb2)

/-! ## Claim C5 -/
/-- Claim C5, confirmed: for every accepted encoder output (non-empty
non-increasing batch-size list whose first entry is the batch size — the
packed-sequence property the code asserts — and an un-sort permutation into
the batch range), the hypothesis returned at each output position is exactly
the sequence of non-blank joiner arg-max token ids emitted for the
corresponding sorted batch element, in step order, with the initial
`context_size` blank seed stripped.  In particular (closed instances with a
single batch element over three steps): an all-blank joiner yields `[[]]`,
and a joiner emitting the non-blank id 5 at step 0 and blanks thereafter
yields `[[5]]`. -/
theorem c5_greedy_search (am : Nat → Nat → List Nat → Nat)
    (blank ctxSize batch : Nat) (bs uns : List Nat) (i : Nat)
    (hne : bs ≠ []) (hhead : bs.headD 0 = batch)
    (hmono : List.Pairwise (fun a b => b ≤ a) bs)
    (hi : i < batch) (hu : uns.getD i 0 < batch) :
    ((greedy_search am blank ctxSize batch bs uns).getD i [] =
      emitSpec am blank ctxSize (uns.getD i 0) bs) ∧
    greedy_search (fun _ _ _ => 0) 0 2 1 [1, 1, 1] [0] = [[]] ∧
    greedy_search (fun t _ _ => if t = 0 then 5 else 0) 0 2 1 [1, 1, 1] [0] =
      [[5]] := by
  refine ⟨?_, by decide, by decide⟩
  obtain ⟨b0, rest, rfl⟩ : ∃ b0 rest, bs = b0 :: rest := by
    cases bs with
    | nil => exact absurd rfl hne
    | cons b0 rest => exact ⟨b0, rest, rfl⟩
  have hb0 : b0 = batch := hhead
  subst hb0
  rw [greedy_search, if_neg (by simp)]
  have hflen : (((b0 :: rest).enum).foldl
      (greedyStep am blank ctxSize)
      (List.replicate b0 (List.replicate ctxSize blank),
       List.replicate b0 (List.replicate ctxSize blank))).1.length =
      b0 := by
    rw [greedy_fold_length]
    exact List.length_replicate _ _
  have hloop := greedy_loop am blank ctxSize b0 (b0 :: rest) 0
    (List.replicate b0 (List.replicate ctxSize blank))
    (List.replicate b0 (List.replicate ctxSize blank))
    (fun _ => [])
    (List.length_replicate _ _)
    (by
      intro j2 hj2
      rw [getD_replicate_lt _ _ _ hj2, List.append_nil])
    (by
      intro j2 hj2
      rw [List.length_replicate] at hj2
      rw [getD_replicate_lt _ _ _ hj2]
      simp [lastN])
    (by
      intro b hb
      rw [List.length_replicate]
      rcases List.mem_cons.mp hb with hb | hb
      · omega
      · have := (List.pairwise_cons.mp hmono).1 b hb
        omega)
    (by
      intro b hb
      rcases List.mem_cons.mp hb with hb | hb
      · omega
      · have := (List.pairwise_cons.mp hmono).1 b hb
        omega)
    hmono (uns.getD i 0) hu
  rw [List.getD_eq_getElem _ _ (by simpa using hi), List.getElem_map,
    List.getElem_range]
  rw [getD_map_dropCtx _ _ _ (by rw [hflen]; exact hu)]
  have henum0 : (b0 :: rest).enum = List.enumFrom 0 (b0 :: rest) := rfl
  rw [henum0, hloop]
  rw [emitSpec, henum0]
  exact drop_replicate_append ctxSize blank _

/-- Witness for C5: batch 2 over batch sizes `[2, 1]`, blank 0, context 2,
identity un-sort, with a joiner emitting id 7 for element 0 at step 0 only:
element 0's hypothesis is `[7]`. -/
theorem c5_witness :
    (greedy_search
        (fun t idx _ => if t = 0 ∧ idx = 0 then 7 else 0) 0 2 2 [2, 1] [0, 1]).getD 0 [] =
      emitSpec (fun t idx _ => if t = 0 ∧ idx = 0 then 7 else 0) 0 2 0 [2, 1] :=
  (c5_greedy_search (fun t idx _ => if t = 0 ∧ idx = 0 then 7 else 0)
    0 2 2 [2, 1] [0, 1] 0 (by decide) (by decide)
    (by decide) (by decide) (by decide)).1

/-! ## Token-shape lemmas for the Vietnamese normalizer

These characterize the output tokens of `normalize_vietnamese_numbers`:
digit strings produced by `natRepr` are non-empty, all-digit, and distinct
from every word the normalizer's vocabulary mentions; tokens produced by
`pySplit` are non-empty, whitespace-free infixes of the input. -/
theorem digitChar10_digit (n : Nat) : isAsciiDigit (digitChar10 n) = true := by
  rw [digitChar10]
  split_ifs <;> decide

theorem natReprAux_digits :
    ∀ (fuel n : Nat), ∀ c ∈ natReprAux fuel n, isAsciiDigit c = true := by
  intro fuel
  induction fuel with
  | zero => intro n c hc; simp [natReprAux] at hc
  | succ f ih =>
    intro n c hc
    rw [natReprAux] at hc
    by_cases h : n < 10
    · rw [if_pos h] at hc
      rw [List.mem_singleton] at hc
      subst hc
      exact digitChar10_digit n
    · rw [if_neg h] at hc
      rcases List.mem_append.mp hc with hc | hc
      · exact ih (n / 10) c hc
      · rw [List.mem_singleton] at hc
        subst hc
        exact digitChar10_digit (n % 10)

theorem natRepr_digits (n : Nat) :
    ∀ c ∈ (natRepr n).data, isAsciiDigit c = true :=
  natReprAux_digits (n + 1) n

theorem natRepr_ne_nil (n : Nat) : (natRepr n).data ≠ [] := by
  show natReprAux (n + 1) n ≠ []
  rw [natReprAux]
  by_cases h : n < 10
  · rw [if_pos h]
    simp
  · rw [if_neg h]
    simp

theorem natRepr_head_digit (n : Nat) :
    ∃ c t', (natRepr n).data = c :: t' ∧ isAsciiDigit c = true := by
  cases hd : (natRepr n).data with
  | nil => exact absurd hd (natRepr_ne_nil n)
  | cons c t' =>
    refine ⟨c, t', rfl, natRepr_digits n c ?_⟩
    rw [hd]
    exact List.mem_cons_self _ _

theorem digit_not_space (c : Char) (h : isAsciiDigit c = true) :
    isPySpace c = false := by
  have h2 : 48 ≤ c.toNat ∧ c.toNat ≤ 57 := by
    simpa [isAsciiDigit, Bool.and_eq_true, decide_eq_true_eq] using h
  by_contra hsp
  have h3 : isPySpace c = true := by
    revert hsp
    cases isPySpace c <;> simp
  simp only [isPySpace, Bool.or_eq_true, Bool.and_eq_true,
    decide_eq_true_eq] at h3
  omega

theorem natRepr_ne_word (n : Nat) (w : String) (c0 : Char) (t0 : List Char)
    (hw : w.data = c0 :: t0) (hc0 : isAsciiDigit c0 = false) :
    natRepr n ≠ w := by
  intro he
  obtain ⟨c, t', hd, hdig⟩ := natRepr_head_digit n
  rw [he, hw] at hd
  injection hd with h1 h2
  rw [← h1] at hdig
  rw [hc0] at hdig
  exact Bool.false_ne_true hdig

theorem natRepr_not_number_token (n : Nat) :
    isNumberToken (natRepr n) = false := by
  rw [isNumberToken, decide_eq_false_iff_not]
  intro hmem
  simp only [number_tokens, List.mem_cons, List.not_mem_nil, or_false] at hmem
  rcases hmem with h|h|h|h|h|h|h|h|h|h|h|h|h|h|h|h|h|h <;>
    exact natRepr_ne_word n _ _ _ rfl (by decide) h

theorem natRepr_not_follower (n : Nat) : natRepr n ∉ number_followers := by
  intro hmem
  simp only [number_followers, List.mem_cons, List.not_mem_nil, or_false] at hmem
  rcases hmem with h|h|h|h|h|h|h|h|h <;>
    exact natRepr_ne_word n _ _ _ rfl (by decide) h

theorem natRepr_ne_phan (n : Nat) : natRepr n ≠ "phần" :=
  natRepr_ne_word n _ _ _ rfl (by decide)

theorem natRepr_ne_ruoi (n : Nat) : natRepr n ≠ "rưỡi" :=
  natRepr_ne_word n _ _ _ rfl (by decide)

theorem splitWsAux_ok :
    ∀ (cs cur : List Char), (∀ c ∈ cur, isPySpace c = false) →
      ∀ t ∈ splitWsAux cur cs, okTok t := by
  intro cs
  induction cs with
  | nil =>
    intro cur hcur t ht
    rw [splitWsAux] at ht
    by_cases hc : cur.isEmpty
    · rw [if_pos hc] at ht
      exact absurd ht (List.not_mem_nil t)
    · rw [if_neg hc] at ht
      rw [List.mem_singleton] at ht
      subst ht
      refine ⟨by simpa using hc, ?_⟩
      intro c hcm
      exact hcur c (List.mem_reverse.mp hcm)
  | cons c cs ih =>
    intro cur hcur t ht
    rw [splitWsAux] at ht
    by_cases hsp : isPySpace c
    · rw [if_pos hsp] at ht
      by_cases hc : cur.isEmpty
      · rw [if_pos hc] at ht
        exact ih [] (by simp) t ht
      · rw [if_neg hc] at ht
        rcases List.mem_cons.mp ht with ht | ht
        · subst ht
          refine ⟨by simpa using hc, ?_⟩
          intro c2 hcm
          exact hcur c2 (List.mem_reverse.mp hcm)
        · exact ih [] (by simp) t ht
    · rw [if_neg hsp] at ht
      refine ih (c :: cur) ?_ t ht
      intro c2 hcm
      rcases List.mem_cons.mp hcm with hcm | hcm
      · subst hcm
        exact Bool.not_eq_true _ |>.mp hsp
      · exact hcur c2 hcm

theorem splitWsAux_token_in_source :
    ∀ (cs cur : List Char), ∀ t ∈ splitWsAux cur cs,
      t <:+: (cur.reverse ++ cs) := by
  intro cs
  induction cs with
  | nil =>
    intro cur t ht
    rw [splitWsAux] at ht
    by_cases hc : cur.isEmpty
    · rw [if_pos hc] at ht
      exact absurd ht (List.not_mem_nil t)
    · rw [if_neg hc] at ht
      rw [List.mem_singleton] at ht
      subst ht
      exact ⟨[], [], by simp⟩
  | cons c cs ih =>
    intro cur t ht
    rw [splitWsAux] at ht
    by_cases hsp : isPySpace c
    · rw [if_pos hsp] at ht
      have htail : t ∈ splitWsAux [] cs → t <:+: (cur.reverse ++ c :: cs) := by
        intro ht2
        have h2 := ih [] t ht2
        simp only [List.reverse_nil, List.nil_append] at h2
        calc t <:+: cs := h2
          _ <:+: cur.reverse ++ c :: cs := by
            refine ⟨cur.reverse ++ [c], [], by simp⟩
      by_cases hc : cur.isEmpty
      · rw [if_pos hc] at ht
        exact htail ht
      · rw [if_neg hc] at ht
        rcases List.mem_cons.mp ht with ht | ht
        · subst ht
          exact ⟨[], c :: cs, by simp⟩
        · exact htail ht
    · rw [if_neg hsp] at ht
      have h2 := ih (c :: cur) t ht
      rw [List.reverse_cons, List.append_assoc] at h2
      simpa using h2

theorem pySplit_ok (s : String) : ∀ t ∈ pySplit s, okTok t.data := by
  intro t ht
  rw [pySplit] at ht
  obtain ⟨l, hl, rfl⟩ := List.mem_map.mp ht
  exact splitWsAux_ok s.data [] (by simp) l hl

theorem pySplit_token_in_source (s : String) : ∀ t ∈ pySplit s, t.data <:+: s.data := by
  intro t ht
  rw [pySplit] at ht
  obtain ⟨l, hl, rfl⟩ := List.mem_map.mp ht
  have h := splitWsAux_token_in_source s.data [] l hl
  simpa using h

theorem joinSpace_data :
    ∀ ts : List String, (joinSpace ts).data = charJoin (ts.map String.data) := by
  intro ts
  match ts with
  | [] => rfl
  | [t] => rfl
  | t :: u :: ts =>
    show (t ++ " " ++ joinSpace (u :: ts)).data = t.data ++ ' ' :: charJoin _
    rw [String.data_append, String.data_append, joinSpace_data (u :: ts)]
    simp [List.append_assoc]

theorem splitWsAux_run :
    ∀ (t cur cs : List Char), (∀ c ∈ t, isPySpace c = false) →
      splitWsAux cur (t ++ cs) = splitWsAux (t.reverse ++ cur) cs := by
  intro t
  induction t with
  | nil => intro cur cs _; simp
  | cons c t ih =>
    intro cur cs hok
    show splitWsAux cur (c :: (t ++ cs)) = _
    rw [splitWsAux, if_neg (by
      have := hok c (List.mem_cons_self _ _)
      simp [this])]
    rw [ih (c :: cur) cs (fun c2 hc2 => hok c2 (List.mem_cons_of_mem _ hc2))]
    rw [List.reverse_cons, List.append_assoc]
    rfl

theorem splitWsAux_join :
    ∀ ts : List (List Char), (∀ t ∈ ts, okTok t) →
      splitWsAux [] (charJoin ts) = ts := by
  intro ts
  match ts with
  | [] => intro _; rfl
  | [t] =>
    intro h
    obtain ⟨hne, hok⟩ := h t (List.mem_singleton.mpr rfl)
    show splitWsAux [] (charJoin [t]) = [t]
    have : charJoin [t] = t ++ [] := by simp [charJoin]
    rw [this, splitWsAux_run t [] [] hok, splitWsAux]
    rw [if_neg (by simp [hne])]
    simp
  | t :: u :: ts =>
    intro h
    obtain ⟨hne, hok⟩ := h t (List.mem_cons_self _ _)
    show splitWsAux [] (t ++ ' ' :: charJoin (u :: ts)) = t :: u :: ts
    rw [splitWsAux_run t [] _ hok, splitWsAux, if_pos (by decide)]
    rw [if_neg (by simp [hne])]
    rw [splitWsAux_join (u :: ts) (fun v hv => h v (List.mem_cons_of_mem _ hv))]
    simp

theorem pySplit_joinSpace (ts : List String)
    (h : ∀ t ∈ ts, okTok t.data) : pySplit (joinSpace ts) = ts := by
  rw [pySplit, joinSpace_data]
  rw [splitWsAux_join (ts.map String.data)
    (by
      intro t ht
      obtain ⟨u, hu, rfl⟩ := List.mem_map.mp ht
      exact h u hu)]
  rw [List.map_map]
  have : (String.mk ∘ String.data) = id := by
    funext u
    rfl
  rw [this, List.map_id]

theorem normAux_mem :
    ∀ (ts : List String) (k : Nat) (p : String),
      ∀ u ∈ normAux k p ts, u ∈ ts ∨ ∃ n, u = natRepr n := by
  intro ts
  induction ts with
  | nil => intro k p u hu; simp [normAux] at hu
  | cons t rest ih =>
    intro k p u hu
    match k with
    | Nat.succ k2 =>
      rw [normAux] at hu
      rcases ih k2 t u hu with h | h
      · exact Or.inl (List.mem_cons_of_mem _ h)
      · exact Or.inr h
    | 0 =>
      rw [normAux] at hu
      by_cases hnt : isNumberToken t
      · rw [if_pos hnt] at hu
        cases hc : runConvert p (t :: rest.takeWhile isNumberToken)
            (rest.dropWhile isNumberToken) with
        | some n =>
          rw [hc] at hu
          rcases List.mem_cons.mp hu with hu | hu
          · exact Or.inr ⟨n, hu⟩
          · rcases ih _ t u hu with h | h
            · exact Or.inl (List.mem_cons_of_mem _ h)
            · exact Or.inr h
        | none =>
          rw [hc] at hu
          rcases List.mem_cons.mp hu with hu | hu
          · exact Or.inl (hu ▸ List.mem_cons_self _ _)
          · rcases ih 0 t u hu with h | h
            · exact Or.inl (List.mem_cons_of_mem _ h)
            · exact Or.inr h
      · rw [if_neg hnt] at hu
        rcases List.mem_cons.mp hu with hu | hu
        · exact Or.inl (hu ▸ List.mem_cons_self _ _)
        · rcases ih 0 t u hu with h | h
          · exact Or.inl (List.mem_cons_of_mem _ h)
          · exact Or.inr h

theorem normTokens_ok (ts : List String) (h : ∀ t ∈ ts, okTok t.data) :
    ∀ u ∈ normTokens ts, okTok u.data := by
  intro u hu
  rcases normAux_mem ts 0 "" u hu with hm | ⟨n, rfl⟩
  · exact h u hm
  · refine ⟨natRepr_ne_nil n, ?_⟩
    intro c hc
    exact digit_not_space c (natRepr_digits n c hc)

theorem normAux_cons_ne_nil (p t : String) (rest : List String) :
    normAux 0 p (t :: rest) ≠ [] := by
  rw [normAux]
  by_cases hnt : isNumberToken t
  · rw [if_pos hnt]
    cases runConvert p (t :: rest.takeWhile isNumberToken)
        (rest.dropWhile isNumberToken) <;> simp
  · rw [if_neg hnt]
    simp

/-! ## Claim C9 -/
/-- Claim C9, confirmed: when the input splits into zero whitespace tokens
(empty or all-whitespace text), `normalize_vietnamese_numbers` returns the
input unchanged, whitespace included; otherwise the output is the normalized
token list rejoined with single spaces, and re-splitting the output recovers
exactly that token list — so all whitespace runs are collapsed to single
spaces and leading/trailing whitespace is removed, even when no number
conversion occurs. -/
theorem c9_whitespace (s : String) :
    (pySplit s = [] → normalize_vietnamese_numbers s = s) ∧
    (pySplit s ≠ [] →
      normalize_vietnamese_numbers s = joinSpace (normTokens (pySplit s)) ∧
      pySplit (normalize_vietnamese_numbers s) = normTokens (pySplit s)) := by
  constructor
  · intro hnil
    rw [normalize_vietnamese_numbers, if_pos (by simp [hnil])]
  · intro hne
    have heq : normalize_vietnamese_numbers s =
        joinSpace (normTokens (pySplit s)) := by
      rw [normalize_vietnamese_numbers,
        if_neg (by simpa [List.isEmpty_iff] using hne)]
    refine ⟨heq, ?_⟩
    rw [heq]
    exact pySplit_joinSpace _ (normTokens_ok _ (pySplit_ok s))

/-- Witness for C9: `"  xin   chào "` splits into two tokens and is returned
as `"xin chào"`. -/
theorem c9_witness :
    normalize_vietnamese_numbers "  xin   chào " = "xin chào" := by
  have h := ((c9_whitespace "  xin   chào ").2 (by decide)).1
  exact h.trans (by decide)

/-! ## Idempotence machinery for the Vietnamese number normalizer -/
theorem normAux_cons_zero (p t : String) (rest : List String) :
    normAux 0 p (t :: rest) =
      if isNumberToken t then
        match runConvert p (t :: rest.takeWhile isNumberToken)
            (rest.dropWhile isNumberToken) with
        | some n =>
          natRepr n :: normAux (rest.takeWhile isNumberToken).length t rest
        | none => t :: normAux 0 t rest
      else t :: normAux 0 t rest := rfl

theorem phan_in_followers : "phần" ∈ number_followers := by decide

theorem shouldConvert_congr (v : Option Nat) (rest rest' : List String)
    (hh : rest.head? = rest'.head?) :
    shouldConvert v rest = shouldConvert v rest' := by
  cases rest with
  | nil =>
    cases rest' with
    | nil => rfl
    | cons y ys => simp at hh
  | cons x xs =>
    cases rest' with
    | nil => simp at hh
    | cons y ys =>
      simp only [List.head?_cons, Option.some_inj] at hh
      subst hh
      simp only [shouldConvert, List.headD_cons]
      by_cases h1 : x ∈ number_followers
      · rw [if_pos h1, if_pos h1]
      · rw [if_neg h1, if_neg h1]
        have hx : ¬ x = "phần" := fun he => h1 (by rw [he]; decide)
        rw [if_neg (show ¬(x = "phần" ∧ (x :: xs).get? 1 = some "trăm") from
            fun hc => hx hc.1),
          if_neg (show ¬(x = "phần" ∧ (x :: ys).get? 1 = some "trăm") from
            fun hc => hx hc.1)]
        by_cases h3 : x = "rưỡi"
        · rw [if_pos h3, if_pos h3]
        · rw [if_neg h3, if_neg h3]
          rw [if_neg (show ¬((x :: xs).isEmpty = true) by simp),
            if_neg (show ¬((x :: ys).isEmpty = true) by simp)]

theorem runConvert_congr (p q : String) (run rest rest' : List String)
    (hh : rest.head? = rest'.head?) (hpq : p = "phần" ↔ q = "phần") :
    runConvert p run rest = runConvert q run rest' := by
  rw [runConvert, runConvert]
  cases words_to_number run with
  | none => rfl
  | some n =>
    have hiff : (shouldConvert (some n) rest = true ∧
        ¬(n = 0 ∧ run = ["không"]) ∧ ¬(run = ["trăm"] ∧ p = "phần")) ↔
        (shouldConvert (some n) rest' = true ∧
        ¬(n = 0 ∧ run = ["không"]) ∧ ¬(run = ["trăm"] ∧ q = "phần")) := by
      rw [shouldConvert_congr (some n) rest rest' hh]
      exact and_congr Iff.rfl (and_congr Iff.rfl
        (not_congr (and_congr Iff.rfl hpq)))
    exact if_congr hiff rfl rfl

theorem dropWhile_head?_false {α : Type} (p : α → Bool) (l : List α) (x : α)
    (h : (l.dropWhile p).head? = some x) : p x = false := by
  induction l with
  | nil => simp [List.dropWhile] at h
  | cons a l ih =>
    rw [List.dropWhile_cons] at h
    by_cases hp : p a
    · rw [if_pos hp] at h
      exact ih h
    · rw [if_neg hp] at h
      simp only [List.head?_cons, Option.some_inj] at h
      rw [← h]
      revert hp
      cases p a <;> simp

theorem headOk_dropWhile (rest : List String) :
    headOk (rest.dropWhile isNumberToken) = true := by
  cases hd : rest.dropWhile isNumberToken with
  | nil => rfl
  | cons x xs =>
    have hx : isNumberToken x = false :=
      dropWhile_head?_false isNumberToken rest x (by rw [hd]; rfl)
    simp [headOk, hx]

theorem takeWhile_all_append (r s : List String) :
    (∀ t ∈ r, isNumberToken t = true) → headOk s = true →
    (r ++ s).takeWhile isNumberToken = r := by
  induction r with
  | nil =>
    intro _ hs
    cases s with
    | nil => rfl
    | cons x xs =>
      have hx : isNumberToken x = false := by
        revert hs
        simp [headOk]
      simp [List.takeWhile_cons, hx]
  | cons t r ih =>
    intro hr hs
    rw [List.cons_append, List.takeWhile_cons,
      if_pos (hr t (List.mem_cons_self _ _))]
    rw [ih (fun u hu => hr u (List.mem_cons_of_mem _ hu)) hs]

theorem dropWhile_all_append (r s : List String) :
    (∀ t ∈ r, isNumberToken t = true) → headOk s = true →
    (r ++ s).dropWhile isNumberToken = s := by
  induction r with
  | nil =>
    intro _ hs
    cases s with
    | nil => rfl
    | cons x xs =>
      have hx : isNumberToken x = false := by
        revert hs
        simp [headOk]
      simp [List.dropWhile_cons, hx]
  | cons t r ih =>
    intro hr hs
    rw [List.cons_append, List.dropWhile_cons,
      if_pos (hr t (List.mem_cons_self _ _))]
    rw [ih (fun u hu => hr u (List.mem_cons_of_mem _ hu)) hs]

theorem normAux_skip (l : List String) :
    ∀ (p : String) (rest : List String),
      normAux l.length p (l ++ rest) = normAux 0 (l.getLastD p) rest := by
  induction l with
  | nil => intro p rest; rfl
  | cons t l ih =>
    intro p rest
    show normAux (Nat.succ l.length) p (t :: (l ++ rest)) = _
    rw [show normAux (Nat.succ l.length) p (t :: (l ++ rest)) =
      normAux l.length t (l ++ rest) from rfl]
    rw [ih t rest, List.getLastD_cons]

theorem getLastD_irrel (l : List String) (hne : l ≠ []) (d d' : String) :
    l.getLastD d = l.getLastD d' := by
  rw [List.getLastD_eq_getLast?, List.getLastD_eq_getLast?,
    List.getLast?_eq_getLast _ hne]
  simp

theorem getLastD_mem_or (l : List String) (d : String) :
    l.getLastD d = d ∨ l.getLastD d ∈ l := by
  cases l with
  | nil => exact Or.inl rfl
  | cons a l =>
    right
    rw [List.getLastD_eq_getLast?, List.getLast?_eq_getLast _ (by simp),
      Option.getD_some]
    exact List.getLast_mem _

theorem headOk_normAux (w : String) (s : List String) (hs : headOk s = true) :
    headOk (normAux 0 w s) = true := by
  cases s with
  | nil => rfl
  | cons x s2 =>
    have hx : isNumberToken x = false := by
      revert hs
      simp [headOk]
    rw [normAux_cons_zero, if_neg (by simp [hx])]
    simp [headOk, hx]

theorem head?_normAux (w : String) (s : List String) (hs : headOk s = true) :
    (normAux 0 w s).head? = s.head? := by
  cases s with
  | nil => rfl
  | cons x s2 =>
    have hx : isNumberToken x = false := by
      revert hs
      simp [headOk]
    rw [normAux_cons_zero, if_neg (by simp [hx])]
    rfl

/-- Structure of the normalizer's pass over one maximal number-token run
followed by a non-run remainder: either every run token is rejected and
passed through, or a (non-empty) suffix of the run is converted to one digit
token after a passed-through prefix. -/
theorem normAux_run_struct :
    ∀ (r : List String) (w : String) (s : List String),
      (∀ t ∈ r, isNumberToken t = true) → headOk s = true →
      normAux 0 w (r ++ s) = r ++ normAux 0 (r.getLastD w) s ∨
      ∃ r1 r2 n, r = r1 ++ r2 ∧ r2 ≠ [] ∧
        (∀ t ∈ r1, isNumberToken t = true) ∧
        normAux 0 w (r ++ s) =
          r1 ++ natRepr n :: normAux 0 (r2.getLastD w) s := by
  intro r
  induction r with
  | nil => intro w s _ _; left; rfl
  | cons t r ih =>
    intro w s hall hs
    have ht : isNumberToken t = true := hall t (List.mem_cons_self _ _)
    have hr : ∀ u ∈ r, isNumberToken u = true :=
      fun u hu => hall u (List.mem_cons_of_mem _ hu)
    have htw : (r ++ s).takeWhile isNumberToken = r :=
      takeWhile_all_append r s hr hs
    have hdw : (r ++ s).dropWhile isNumberToken = s :=
      dropWhile_all_append r s hr hs
    rw [List.cons_append, normAux_cons_zero, if_pos ht, htw, hdw]
    cases hc : runConvert w (t :: r) s with
    | some n =>
      right
      refine ⟨[], t :: r, n, rfl, by simp, by simp, ?_⟩
      rw [normAux_skip r t s, List.nil_append, List.getLastD_cons]
    | none =>
      rcases ih t s hr hs with hii | ⟨r1, r2, n, heq, hne, hr1, hout⟩
      · left
        rw [hii, List.getLastD_cons, List.cons_append]
      · right
        refine ⟨t :: r1, r2, n, by rw [heq]; rfl, hne, ?_, ?_⟩
        · intro u hu
          rcases List.mem_cons.mp hu with hu | hu
          · exact hu ▸ ht
          · exact hr1 u hu
        · rw [hout, List.cons_append,
            getLastD_irrel r2 hne t w]

theorem runConvert_digit_next (q : String) (run : List String) (n : Nat)
    (X : List String) : runConvert q run (natRepr n :: X) = none := by
  rw [runConvert]
  cases words_to_number run with
  | none => rfl
  | some m =>
    have hsc : shouldConvert (some m) (natRepr n :: X) = false := by
      simp only [shouldConvert, List.headD_cons]
      rw [if_neg (natRepr_not_follower n)]
      rw [if_neg (show ¬(natRepr n = "phần" ∧
          (natRepr n :: X).get? 1 = some "trăm") from
        fun hc => natRepr_ne_phan n hc.1)]
      rw [if_neg (natRepr_ne_ruoi n)]
      rw [if_neg (show ¬((natRepr n :: X).isEmpty = true) by simp)]
    show (if shouldConvert (some m) (natRepr n :: X) = true ∧
        ¬(m = 0 ∧ run = ["không"]) ∧ ¬(run = ["trăm"] ∧ q = "phần")
      then some m else none) = none
    rw [if_neg (show ¬(shouldConvert (some m) (natRepr n :: X) = true ∧
        ¬(m = 0 ∧ run = ["không"]) ∧ ¬(run = ["trăm"] ∧ q = "phần")) from
      fun hcond => by
        have h1 := hcond.1
        rw [hsc] at h1
        exact absurd h1 (by simp))]

theorem number_token_ne_phan (t : String) (ht : isNumberToken t = true) :
    ¬ t = "phần" := by
  intro he
  rw [he] at ht
  exact absurd ht (by decide)

theorem getLastD_run_ne_phan (r : List String) (t : String)
    (hr : ∀ u ∈ r, isNumberToken u = true) (ht : isNumberToken t = true) :
    ¬ r.getLastD t = "phần" := by
  rcases getLastD_mem_or r t with h | h
  · rw [h]
    exact number_token_ne_phan t ht
  · exact number_token_ne_phan _ (hr _ h)

/-- Token-level idempotence of the number-normalization scan: a second pass
(with any previous-token context agreeing with the first on the `"phần"`
test) leaves the first pass's output unchanged. -/
theorem normAux_idem_bound :
    ∀ (N : Nat) (ts : List String), ts.length ≤ N → ∀ p q : String,
      (p = "phần" ↔ q = "phần") →
      normAux 0 q (normAux 0 p ts) = normAux 0 p ts := by
  intro N
  induction N with
  | zero =>
    intro ts hlen p q _
    have h0 : ts = [] := List.length_eq_zero.mp (Nat.le_zero.mp hlen)
    subst h0
    rfl
  | succ N ih =>
    intro ts hlen p q hpq
    cases ts with
    | nil => rfl
    | cons t rest =>
      have hrest : rest.length ≤ N := by
        simp only [List.length_cons] at hlen
        omega
      by_cases hnt : isNumberToken t
      case neg =>
        rw [normAux_cons_zero, if_neg hnt]
        rw [normAux_cons_zero, if_neg hnt]
        rw [ih rest hrest t t Iff.rfl]
      case pos =>
        cases hc : runConvert p (t :: rest.takeWhile isNumberToken)
            (rest.dropWhile isNumberToken) with
        | some n =>
          have h1 : normAux 0 p (t :: rest) =
              natRepr n :: normAux 0
                ((rest.takeWhile isNumberToken).getLastD t)
                (rest.dropWhile isNumberToken) := by
            rw [normAux_cons_zero, if_pos hnt, hc]
            have hskip := normAux_skip (rest.takeWhile isNumberToken) t
              (rest.dropWhile isNumberToken)
            rw [List.takeWhile_append_dropWhile] at hskip
            rw [hskip]
          rw [h1]
          rw [normAux_cons_zero,
            if_neg (by simp [natRepr_not_number_token n])]
          have hlen2 : (rest.dropWhile isNumberToken).length ≤ N := by
            have hd := (List.dropWhile_suffix
              (l := rest) isNumberToken).length_le
            omega
          rw [ih (rest.dropWhile isNumberToken) hlen2
            ((rest.takeWhile isNumberToken).getLastD t) (natRepr n)
            (iff_of_false
              (getLastD_run_ne_phan _ t
                (fun u hu => List.mem_takeWhile_imp hu) hnt)
              (natRepr_ne_phan n))]
        | none =>
          have h1 : normAux 0 p (t :: rest) = t :: normAux 0 t rest := by
            rw [normAux_cons_zero, if_pos hnt, hc]
          rw [h1]
          have hsplit : rest.takeWhile isNumberToken ++
              rest.dropWhile isNumberToken = rest :=
            List.takeWhile_append_dropWhile _ _
          have hS := normAux_run_struct (rest.takeWhile isNumberToken) t
            (rest.dropWhile isNumberToken)
            (fun u hu => List.mem_takeWhile_imp hu)
            (headOk_dropWhile rest)
          rw [hsplit] at hS
          have hdec : runConvert q
              (t :: (normAux 0 t rest).takeWhile isNumberToken)
              ((normAux 0 t rest).dropWhile isNumberToken) = none := by
            rcases hS with hii | ⟨r1, r2, n, heq, hne2, hr1, hout⟩
            · have hY : headOk (normAux 0
                  ((rest.takeWhile isNumberToken).getLastD t)
                  (rest.dropWhile isNumberToken)) = true :=
                headOk_normAux _ _ (headOk_dropWhile rest)
              have htw2 : (normAux 0 t rest).takeWhile isNumberToken =
                  rest.takeWhile isNumberToken := by
                rw [hii]
                exact takeWhile_all_append _ _
                  (fun u hu => List.mem_takeWhile_imp hu) hY
              have hdw2 : (normAux 0 t rest).dropWhile isNumberToken =
                  normAux 0 ((rest.takeWhile isNumberToken).getLastD t)
                    (rest.dropWhile isNumberToken) := by
                rw [hii]
                exact dropWhile_all_append _ _
                  (fun u hu => List.mem_takeWhile_imp hu) hY
              have hheads : (normAux 0
                  ((rest.takeWhile isNumberToken).getLastD t)
                  (rest.dropWhile isNumberToken)).head? =
                  (rest.dropWhile isNumberToken).head? :=
                head?_normAux _ _ (headOk_dropWhile rest)
              rw [htw2, hdw2]
              rw [runConvert_congr q p (t :: rest.takeWhile isNumberToken)
                _ (rest.dropWhile isNumberToken) hheads hpq.symm]
              exact hc
            · have hY2 : headOk (natRepr n :: normAux 0 (r2.getLastD t)
                  (rest.dropWhile isNumberToken)) = true := by
                simp [headOk, natRepr_not_number_token n]
              have htw2 : (normAux 0 t rest).takeWhile isNumberToken = r1 := by
                rw [hout]
                exact takeWhile_all_append r1 _ hr1 hY2
              have hdw2 : (normAux 0 t rest).dropWhile isNumberToken =
                  natRepr n :: normAux 0 (r2.getLastD t)
                    (rest.dropWhile isNumberToken) := by
                rw [hout]
                exact dropWhile_all_append r1 _ hr1 hY2
              rw [htw2, hdw2]
              exact runConvert_digit_next q _ n _
          rw [normAux_cons_zero, if_pos hnt, hdec]
          rw [ih rest hrest t t Iff.rfl]

/-- Idempotence of the token-level normalizer. -/
theorem normTokens_idem (ts : List String) :
    normTokens (normTokens ts) = normTokens ts :=
  normAux_idem_bound ts.length ts (le_refl _) "" "" Iff.rfl

/-! ## Literal-substitution lemmas (`str.replace` as used by
`normalize_vietnamese_transcript` / `normalize_cancellation_terms`) -/
theorem replAux_no_occ (pat rep : List Char) :
    ∀ l : List Char, ¬ (pat <:+: l) → replAux pat rep 0 l = l := by
  intro l
  induction l with
  | nil => intro _; rfl
  | cons c cs ih =>
    intro hno
    show (if pat ≠ [] ∧ pat.isPrefixOf (c :: cs) then
        rep ++ replAux pat rep (pat.length - 1) cs
      else c :: replAux pat rep 0 cs) = c :: cs
    rw [if_neg (show ¬(pat ≠ [] ∧ pat.isPrefixOf (c :: cs)) from
      fun hc => hno (List.infix_cons_iff.mpr
        (Or.inl (List.isPrefixOf_iff_prefix.mp hc.2))))]
    rw [ih (fun hinf => hno (List.infix_cons_iff.mpr (Or.inr hinf)))]

theorem pyReplace_no_occ (s pat rep : String)
    (h : ¬ (pat.data <:+: s.data)) : pyReplace s pat rep = s := by
  rw [pyReplace, replAux_no_occ pat.data rep.data s.data h]

/-- A non-empty whitespace-free pattern inside `a ++ ' ' :: X` lies wholly
inside `a` or wholly inside `X`. -/
theorem infix_space_boundary (pat : List Char) (hne : pat ≠ [])
    (hnosp : ∀ c ∈ pat, isPySpace c = false) :
    ∀ (a X : List Char), pat <:+: (a ++ ' ' :: X) →
      pat <:+: a ∨ pat <:+: X := by
  intro a
  induction a with
  | nil =>
    intro X hinf
    simp only [List.nil_append] at hinf
    rcases List.infix_cons_iff.mp hinf with hpre | hinf2
    · exfalso
      cases pat with
      | nil => exact hne rfl
      | cons p0 pt =>
        obtain ⟨t, ht⟩ := hpre
        injection ht with h1 _
        have hmem := hnosp p0 (List.mem_cons_self _ _)
        rw [h1] at hmem
        exact absurd hmem (by decide)
    · exact Or.inr hinf2
  | cons c a ih =>
    intro X hinf
    rw [List.cons_append] at hinf
    rcases List.infix_cons_iff.mp hinf with hpre | hinf2
    · left
      by_cases hlen : pat.length ≤ (c :: a).length
      · have hca : (c :: a) <+: c :: (a ++ ' ' :: X) :=
          ⟨' ' :: X, by simp⟩
        exact (List.prefix_of_prefix_length_le hpre hca hlen).isInfix
      · exfalso
        obtain ⟨t, ht⟩ := hpre
        have hlt : (c :: a).length < pat.length := by omega
        have h1 : (pat ++ t)[(c :: a).length]? = pat[(c :: a).length]? :=
          List.getElem?_append_left (by omega)
        have h2 : ((c :: a) ++ ' ' :: X)[(c :: a).length]? = some ' ' := by
          rw [List.getElem?_append_right (Nat.le_refl _)]
          simp
        have h3 : pat[(c :: a).length]? = some ' ' := by
          rw [← h1, ht]
          exact h2
        have hm : (' ' : Char) ∈ pat := List.getElem?_mem h3
        have := hnosp ' ' hm
        exact absurd this (by decide)
    · rcases ih X hinf2 with h | h
      · exact Or.inl (List.infix_cons_iff.mpr (Or.inr h))
      · exact Or.inr h

theorem not_infix_charJoin (pat : List Char) (hne : pat ≠ [])
    (hnosp : ∀ c ∈ pat, isPySpace c = false) :
    ∀ ts : List (List Char), (∀ t ∈ ts, ¬ pat <:+: t) →
      ¬ pat <:+: charJoin ts := by
  intro ts
  match ts with
  | [] =>
    intro _ hinf
    exact hne (List.eq_nil_of_infix_nil hinf)
  | [t] =>
    intro h hinf
    exact h t (List.mem_singleton.mpr rfl) hinf
  | t :: u :: ts2 =>
    intro h hinf
    rw [show charJoin (t :: u :: ts2) = t ++ ' ' :: charJoin (u :: ts2)
      from rfl] at hinf
    rcases infix_space_boundary pat hne hnosp t (charJoin (u :: ts2))
        hinf with h1 | h1
    · exact h t (List.mem_cons_self _ _) h1
    · exact not_infix_charJoin pat hne hnosp (u :: ts2)
        (fun v hv => h v (List.mem_cons_of_mem _ hv)) h1

theorem not_infix_natRepr (pat : List Char) (c0 : Char) (hmem : c0 ∈ pat)
    (hc0 : isAsciiDigit c0 = false) (n : Nat) :
    ¬ pat <:+: (natRepr n).data := by
  intro hinf
  have hsub : c0 ∈ (natRepr n).data := hinf.subset hmem
  have := natRepr_digits n c0 hsub
  rw [hc0] at this
  exact Bool.false_ne_true this

/-- Zeta-reduced form of `normalize_vietnamese_transcript`. -/
theorem transcript_unfold (u : String) :
    normalize_vietnamese_transcript u =
      normalize_cancellation_terms (normalize_vietnamese_numbers
        (pyReplace (pyReplace (pyReplace (pyReplace (pyReplace u
          "tivi" "tv") "ti vi" "tv") "ti-vi" "tv") "ti. vi" "tv")
          "ga ra" "gara")) := rfl

/-! ## Claim C6 -/
/-- Claim C6 is false as stated: the normalizer collapses whitespace runs to
single spaces, which can enable a literal substitution on the second pass.
Concretely `normalize_vietnamese_transcript "ti\nvi" = "ti vi"` (the newline
prevents the `"ti vi" → "tv"` substitution but the token rejoin produces it),
and a second application yields `"tv"`. -/
theorem c6_counterexample :
    normalize_vietnamese_transcript (normalize_vietnamese_transcript
        "ti\nvi") ≠ normalize_vietnamese_transcript "ti\nvi" := by
  decide

/-- Claim C6, amended: the Vietnamese transcript normalizer is idempotent on
every input whose whitespace is already canonical (the string equals the
single-space join of its whitespace tokens — the counterexample shows
whitespace collapsing otherwise feeds the literal substitutions on the
second pass) and in which none of the literal-substitution triggers `"ti"`,
`"ga"`, `"hủy"`, `"Hủy"` occurs as a substring. -/
theorem c6_idempotent_amended (s : String)
    (hcanon : s = joinSpace (pySplit s))
    (hti : ¬ ("ti".data <:+: s.data))
    (hga : ¬ ("ga".data <:+: s.data))
    (hhuy : ¬ ("hủy".data <:+: s.data))
    (hHuy : ¬ ("Hủy".data <:+: s.data)) :
    normalize_vietnamese_transcript (normalize_vietnamese_transcript s) =
      normalize_vietnamese_transcript s := by
  have hA : ∀ u : String, ¬ ("ti".data <:+: u.data) →
      ¬ ("ga".data <:+: u.data) →
      pyReplace (pyReplace (pyReplace (pyReplace (pyReplace u
        "tivi" "tv") "ti vi" "tv") "ti-vi" "tv") "ti. vi" "tv")
        "ga ra" "gara" = u := by
    intro u h1 h2
    rw [pyReplace_no_occ u "tivi" "tv"
      (fun hin => h1 (List.IsInfix.trans (by decide) hin))]
    rw [pyReplace_no_occ u "ti vi" "tv"
      (fun hin => h1 (List.IsInfix.trans (by decide) hin))]
    rw [pyReplace_no_occ u "ti-vi" "tv"
      (fun hin => h1 (List.IsInfix.trans (by decide) hin))]
    rw [pyReplace_no_occ u "ti. vi" "tv"
      (fun hin => h1 (List.IsInfix.trans (by decide) hin))]
    rw [pyReplace_no_occ u "ga ra" "gara"
      (fun hin => h2 (List.IsInfix.trans (by decide) hin))]
  have hC : ∀ u : String, ¬ ("hủy".data <:+: u.data) →
      ¬ ("Hủy".data <:+: u.data) → normalize_cancellation_terms u = u := by
    intro u h1 h2
    rw [normalize_cancellation_terms, pyReplace_no_occ u "hủy" "huỷ" h1,
      pyReplace_no_occ u "Hủy" "Huỷ" h2]
  by_cases hts : pySplit s = []
  · have hs0 : s = "" := by
      rw [hcanon, hts]
      rfl
    subst hs0
    decide
  · have htok : ∀ u ∈ normTokens (pySplit s), okTok u.data :=
      normTokens_ok _ (pySplit_ok s)
    have hpat : ∀ (pat : String), pat.data ≠ [] →
        (∀ c ∈ pat.data, isPySpace c = false) →
        ¬ (pat.data <:+: s.data) →
        (∀ n : Nat, ¬ pat.data <:+: (natRepr n).data) →
        ¬ (pat.data <:+: (joinSpace (normTokens (pySplit s))).data) := by
      intro pat hne hnosp hnots hnotd
      rw [joinSpace_data]
      apply not_infix_charJoin pat.data hne hnosp
      intro tl htl
      obtain ⟨u, hu, rfl⟩ := List.mem_map.mp htl
      rcases normAux_mem _ 0 "" u hu with hm | ⟨n, rfl⟩
      · exact fun hinf => hnots (hinf.trans (pySplit_token_in_source s u hm))
      · exact hnotd n
    have hti1 : ¬ ("ti".data <:+:
        (joinSpace (normTokens (pySplit s))).data) :=
      hpat "ti" (by decide) (by decide) hti
        (fun n => not_infix_natRepr _ 't' (by decide) (by decide) n)
    have hga1 : ¬ ("ga".data <:+:
        (joinSpace (normTokens (pySplit s))).data) :=
      hpat "ga" (by decide) (by decide) hga
        (fun n => not_infix_natRepr _ 'g' (by decide) (by decide) n)
    have hhuy1 : ¬ ("hủy".data <:+:
        (joinSpace (normTokens (pySplit s))).data) :=
      hpat "hủy" (by decide) (by decide) hhuy
        (fun n => not_infix_natRepr _ 'h' (by decide) (by decide) n)
    have hHuy1 : ¬ ("Hủy".data <:+:
        (joinSpace (normTokens (pySplit s))).data) :=
      hpat "Hủy" (by decide) (by decide) hHuy
        (fun n => not_infix_natRepr _ 'H' (by decide) (by decide) n)
    have hN : normalize_vietnamese_numbers s =
        joinSpace (normTokens (pySplit s)) := by
      rw [normalize_vietnamese_numbers,
        if_neg (by simpa [List.isEmpty_iff] using hts)]
    have hfs : normalize_vietnamese_transcript s =
        joinSpace (normTokens (pySplit s)) := by
      rw [transcript_unfold, hA s hti hga, hN, hC _ hhuy1 hHuy1]
    rw [hfs]
    have hsplit1 : pySplit (joinSpace (normTokens (pySplit s))) =
        normTokens (pySplit s) := pySplit_joinSpace _ htok
    have hne1 : normTokens (pySplit s) ≠ [] := by
      obtain ⟨t, rest, hts3⟩ : ∃ t rest, pySplit s = t :: rest := by
        cases hx : pySplit s with
        | nil => exact absurd hx hts
        | cons t rest => exact ⟨t, rest, rfl⟩
      rw [show normTokens (pySplit s) = normAux 0 "" (pySplit s) from rfl,
        hts3]
      exact normAux_cons_ne_nil "" t rest
    rw [transcript_unfold, hA _ hti1 hga1]
    have hN2 : normalize_vietnamese_numbers
        (joinSpace (normTokens (pySplit s))) =
        joinSpace (normTokens (pySplit s)) := by
      rw [normalize_vietnamese_numbers,
        if_neg (by simp [hsplit1, List.isEmpty_iff, hne1]),
        hsplit1]
      rw [show normTokens (normTokens (pySplit s)) = normTokens (pySplit s)
        from normTokens_idem (pySplit s)]
    rw [hN2, hC _ hhuy1 hHuy1]

/-- Witness for C6 (amended): `"mười lăm phút"` has canonical whitespace and
no substitution triggers, and normalizing it twice equals normalizing it
once. -/
theorem c6_witness :
    normalize_vietnamese_transcript (normalize_vietnamese_transcript
        "mười lăm phút") = normalize_vietnamese_transcript "mười lăm phút" :=
  c6_idempotent_amended "mười lăm phút" (by decide) (by decide) (by decide)
    (by decide) (by decide)

/-! ## Claim C1 -/
/-- Claim C1 is false as stated: the Vosk backend
(transcribe_vosk.py lines 60-65) applies the casing function and then
`decode_meta` directly, never invoking the Vietnamese normalizer, even though
the claim requires the normalizer for every backend whenever the model's
`language_family` is `"vi"`.  With identity casing and identity `decode_meta`
and recognized text `"một giờ"`, the claimed composition (for a `"vi"` model)
yields `normalize_vietnamese_transcript "một giờ" = "1 giờ"`, but the Vosk
pipeline returns `"một giờ"`. -/
theorem c1_counterexample :
    voskPost (fun s => s) (fun s => s) ["một giờ"] ≠
      (fun s => s) (normalize_vietnamese_transcript ((fun s => s) "một giờ")) := by
  decide

/-- Claim C1, amended: for the VietASR, ChunkFormer and Whisper backends the
final phrase is produced by applying the model's casing function first, then
(after whitespace stripping, and for Whisper also trailing-period removal,
with an empty-check that short-circuits to `""`) the Vietnamese normalizer if
and only if the model's `language_family` is `"vi"`, then the external
`decode_meta` — in that fixed order.  The Vosk backend instead applies the
casing function and then `decode_meta` directly, with no Vietnamese
normalization step. -/
theorem c1_pipeline_order_amended
    (cf dm : String → String) (m : Model) (t : String) (frs : List String)
    (ht : t ≠ "") (hf : frs ≠ []) :
    vietasrPost cf dm m t =
      (if pyStrip (cf t) = "" then ""
       else dm (if m.language_family = "vi"
         then normalize_vietnamese_transcript (pyStrip (cf t))
         else pyStrip (cf t))) ∧
    chunkformerPost cf dm m t =
      (if pyStrip (cf t) = "" then ""
       else dm (if m.language_family = "vi"
         then normalize_vietnamese_transcript (pyStrip (cf t))
         else pyStrip (cf t))) ∧
    whisperPost cf dm m t =
      (if pyStrip (rstripDot (cf t)) = "" then ""
       else dm (if m.language_family = "vi"
         then normalize_vietnamese_transcript (pyStrip (rstripDot (cf t)))
         else pyStrip (rstripDot (cf t)))) ∧
    voskPost cf dm frs = dm (cf (joinSpace frs)) := by
  refine ⟨?_, ?_, ?_, ?_⟩
  · rw [vietasrPost, if_neg ht]
    show (if pyStrip (cf t) = "" then ""
      else finalize_transcript dm m (pyStrip (cf t))) = _
    by_cases hu : pyStrip (cf t) = ""
    · rw [if_pos hu, if_pos hu]
    · rw [if_neg hu, if_neg hu, pyStrip_finalize, if_neg hu]
  · rw [chunkformerPost, if_neg ht]
    show (if pyStrip (cf t) = "" then ""
      else finalize_transcript dm m (pyStrip (cf t))) = _
    by_cases hu : pyStrip (cf t) = ""
    · rw [if_pos hu, if_pos hu]
    · rw [if_neg hu, if_neg hu, pyStrip_finalize, if_neg hu]
  · rw [whisperPost, if_neg ht, finalize_transcript]
  · rw [voskPost, if_neg (by simpa using hf)]

/-- Witness for C1 (amended), at identity casing and `decode_meta`, a `"vi"`
model and the recognized text `"một giờ"`: the VietASR pipeline produces the
normalizer's output `"1 giờ"`. -/
theorem c1_witness :
    vietasrPost (fun s => s) (fun s => s) ⟨"vi"⟩ "một giờ" = "1 giờ" := by
  have h := (c1_pipeline_order_amended (fun s => s) (fun s => s) ⟨"vi"⟩
    "một giờ" ["x"] (by decide) (by decide)).1
  exact h.trans (by decide)

/-! ## Claim C4 -/
/-- Claim C4, confirmed: `normalize_vietnamese_numbers` maps `"một giờ"` to
`"1 giờ"` (unit-of-measure follower), `"mười lăm phút"` to `"15 phút"` and a
final `"hai mươi"` (value 20 ≥ 10) to `"20"`, while `"không"` alone
(zero guard), `"phần trăm"` (idiom exclusion) and a standalone final `"ba"`
(value 3 < 10) are returned unchanged. -/
theorem c4_normalizer_examples :
    normalize_vietnamese_numbers "một giờ" = "1 giờ" ∧
    normalize_vietnamese_numbers "mười lăm phút" = "15 phút" ∧
    normalize_vietnamese_numbers "hai mươi" = "20" ∧
    normalize_vietnamese_numbers "không" = "không" ∧
    normalize_vietnamese_numbers "phần trăm" = "phần trăm" ∧
    normalize_vietnamese_numbers "ba" = "ba" := by
  decide

/-! ## Claim C10 -/
/-- Claim C10, confirmed: `transcribe_whisper` feeds `finalize_transcript`
with `casing_func(text).rstrip(".")`, and a right-strip of `'.'` characters
never leaves a trailing `'.'`, so the text entering the finalization pipeline
in the Whisper backend never ends with a period. -/
theorem c10_whisper_rstrip
    (cf dm : String → String) (m : Model) (t : String) (ht : t ≠ "") :
    whisperPost cf dm m t = finalize_transcript dm m (rstripDot (cf t)) ∧
    (rstripDot (cf t)).data.getLast? ≠ some '.' := by
  constructor
  · rw [whisperPost, if_neg ht]
  · exact rstripDot_no_trailing_dot (cf t)

/-- Witness for C10 at identity casing and `decode_meta`, an `"en"` model and
recognized text `"turn it off..."`. -/
theorem c10_witness :
    whisperPost (fun s => s) (fun s => s) ⟨"en"⟩ "turn it off..." =
        finalize_transcript (fun s => s) ⟨"en"⟩ (rstripDot "turn it off...") ∧
      (rstripDot "turn it off...").data.getLast? ≠ some '.' :=
  c10_whisper_rstrip (fun s => s) (fun s => s) ⟨"en"⟩ "turn it off..."
    (by decide)

end SpeechToPhrase
